import Mathlib

/-!
Verification of the `PatchParser` component of the git-patch-viewer
repository (`src/js/urlHandler.js`, module `PatchParser`) against its
specification.

The JavaScript source is shallowly embedded below.  Lines of the input are
represented as `List Char` (the input string is split on `'\n'` exactly as
`patchText.split('\n')` does).  JavaScript objects that are mutated after
being pushed into arrays (the parser pushes `currentHunk` into
`currentFile.hunks`, and `currentFile` into `files`, while keeping the very
same object as its cursor when a header line fails its regular expression)
are modelled by counting the pending aliased pushes (`curHunkPushed`,
`curFilePushed`) and materialising them with the object's final value at the
moment the cursor is reassigned, which is exactly when the shared mutable
object stops being mutated in the original program.

JavaScript regular expressions used by the parser are embedded as
deterministic matchers; each matcher is equivalent to the backtracking
semantics of its specific pattern on newline-free inputs (every line
produced by `split('\n')` is newline-free).  `Date` parsing is environment
defined in JavaScript, so `formatRelativeTime` takes the parse result as an
`Option Int` (`none` models an Invalid Date, whose `NaN` arithmetic is
modelled by `Option` propagation).
-/

set_option maxRecDepth 8000

/-- Lines of `s.split('\n')`: split on every newline, keeping empty pieces. -/
def splitOnNl : List Char → List (List Char)
  | [] => [[]]
  | c :: rest =>
    if c = '\n' then [] :: splitOnNl rest
    else
      match splitOnNl rest with
      | [] => [[c]]
      | l :: ls => (c :: l) :: ls

/-- Digit test for the regex class `\d`. -/
def isDigitChar (c : Char) : Bool := 48 ≤ c.toNat && c.toNat ≤ 57

/-- Lowercase-hex test for the regex class `[0-9a-f]`. -/
def isHexLowerChar (c : Char) : Bool :=
  (48 ≤ c.toNat && c.toNat ≤ 57) || (97 ≤ c.toNat && c.toNat ≤ 102)

/-- The ECMAScript whitespace class used by `String.prototype.trim` and `\s`. -/
def jsIsWhitespace (c : Char) : Bool :=
  (9 ≤ c.toNat && c.toNat ≤ 13) || c.toNat = 32 || c.toNat = 160 ||
  c.toNat = 5760 || (8192 ≤ c.toNat && c.toNat ≤ 8202) || c.toNat = 8232 ||
  c.toNat = 8233 || c.toNat = 8239 || c.toNat = 8287 || c.toNat = 12288 ||
  c.toNat = 65279

/-- The ECMAScript line terminators (LF, CR, LS, PS): the characters the
regex `.` never matches and after which a multiline `^` anchors. -/
def isLineTerminator (c : Char) : Bool :=
  c = '\n' || c = '\r' || c.toNat = 8232 || c.toNat = 8233

/-- `s.trim()` on a character list. -/
def trimChars (cs : List Char) : List Char :=
  ((cs.dropWhile jsIsWhitespace).reverse.dropWhile jsIsWhitespace).reverse

/-- Decimal value of a digit string, as computed by `parseInt` on an
all-digit string. -/
def natOfDigits (ds : List Char) : Nat :=
  ds.foldl (fun n c => n * 10 + (c.toNat - 48)) 0

/-- Whether `pat` occurs as a contiguous run anywhere in the list. -/
def hasSubstringAt (pat : List Char) : List Char → Bool
  | [] => pat.isPrefixOf ([] : List Char)
  | l@(_ :: rest) => pat.isPrefixOf l || hasSubstringAt pat rest

/-- One classified hunk line (`HunkLine` in the spec): the marker character
is stripped from `content`. -/
inductive LineType where
  | add : LineType
  | del : LineType
  | context : LineType
deriving DecidableEq, Repr

structure HunkLine where
  type : LineType
  content : String
deriving DecidableEq, Repr

/-- A hunk (`@@ -oldStart,oldLines +newStart,newLines @@ heading`). -/
structure Hunk where
  oldStart : Nat
  oldLines : Nat
  newStart : Nat
  newLines : Nat
  heading : String
  lines : List HunkLine
deriving DecidableEq, Repr

inductive FileType where
  | modified : FileType
  | added : FileType
  | deleted : FileType
  | renamed : FileType
deriving DecidableEq, Repr

structure FileDiff where
  oldPath : String
  newPath : String
  type : FileType
  hunks : List Hunk
  additions : Nat
  deletions : Nat
  isBinary : Bool
deriving DecidableEq, Repr

structure DiffStats where
  filesChanged : Nat
  additions : Nat
  deletions : Nat
deriving DecidableEq, Repr

structure CommitMetadata where
  commitHash : Option String
  author : Option String
  authorEmail : Option String
  date : Option String
  message : String
  refs : List String
deriving DecidableEq, Repr

structure ParsedPatch where
  metadata : CommitMetadata
  files : List FileDiff
  stats : DiffStats
  raw : String
deriving DecidableEq, Repr

/-- The lazy split of `(.+?) b\/(.+)` after the literal `diff --git a/`:
the first group takes the fewest characters (none of which may be a line
terminator, which `.` cannot match) such that ` b/` follows with at least
one non-terminator character after it; the second group greedily takes the
maximal terminator-free run from there. -/
def diffGitSplit (g1 : List Char) : List Char → Option (List Char × List Char)
  | [] => none
  | c :: rest =>
    if isLineTerminator c = true then none
    else if (" b/".toList).isPrefixOf rest ∧
        (rest.drop 3).takeWhile (fun d => !(isLineTerminator d)) ≠ [] then
      some (g1 ++ [c], (rest.drop 3).takeWhile (fun d => !(isLineTerminator d)))
    else diffGitSplit (g1 ++ [c]) rest

/-- Leftmost match of the unanchored regex `diff --git a\/(.+?) b\/(.+)`. -/
def matchDiffGit : List Char → Option (List Char × List Char)
  | [] => none
  | l@(_ :: rest) =>
    (if ("diff --git a/".toList).isPrefixOf l then diffGitSplit [] (l.drop 13)
     else none) <|> matchDiffGit rest

/-- Match of `@@ -(\d+),?(\d*) \+(\d+),?(\d*) @@(.*)` anchored at the head of
the list.  The backtracking search of the original pattern is equivalent to
this maximal-munch parse: each `(\d+)`/`(\d*)` group takes a maximal digit
run, `,?` takes a comma when one is present, because the continuation after
each group starts with a space, which is neither a digit nor a comma. -/
def matchHunkAt (cs : List Char) : Option Hunk :=
  if ("@@ -".toList).isPrefixOf cs then
    let t0 := cs.drop 4
    let d1 := t0.takeWhile isDigitChar
    if d1 = [] then none
    else
      let t1 := t0.drop d1.length
      let t1b := if t1.head? = some ',' then t1.drop 1 else t1
      let d2 := t1b.takeWhile isDigitChar
      let t2 := t1b.drop d2.length
      if (" +".toList).isPrefixOf t2 then
        let t3 := t2.drop 2
        let d3 := t3.takeWhile isDigitChar
        if d3 = [] then none
        else
          let t4 := t3.drop d3.length
          let t4b := if t4.head? = some ',' then t4.drop 1 else t4
          let d4 := t4b.takeWhile isDigitChar
          let t5 := t4b.drop d4.length
          if (" @@".toList).isPrefixOf t5 then
            some { oldStart := natOfDigits d1,
                   oldLines := if d2 = [] then 1 else natOfDigits d2,
                   newStart := natOfDigits d3,
                   newLines := if d4 = [] then 1 else natOfDigits d4,
                   heading := String.mk (trimChars
                     ((t5.drop 3).takeWhile (fun d => !(isLineTerminator d)))),
                   lines := [] }
          else none
      else none
  else none

/-- Leftmost match of the unanchored hunk-header regex. -/
def matchHunkHeader : List Char → Option Hunk
  | [] => none
  | l@(_ :: rest) => matchHunkAt l <|> matchHunkHeader rest

/-- Test of `/^Binary files .* differ/`: the line starts with
`Binary files ` and ` differ` occurs after that prefix, with only
non-terminator characters (which is all `.*` can match) before it. -/
def isBinaryMarker (line : List Char) : Bool :=
  ("Binary files ".toList).isPrefixOf line &&
    hasSubstringAt (" differ".toList)
      ((line.drop 13).takeWhile (fun d => !(isLineTerminator d)))

/-- Parser cursor state for `parseFiles`.  `doneHunks` are the hunks of the
current file whose object identity is no longer aliased by `currentHunk`;
`curHunkPushed` counts how many times the still-current hunk object has
already been pushed into the current file's `hunks` array (this happens when
an `@@` line fails the header regex, leaving the cursor on the pushed
object).  `curFilePushed` plays the same role for the current file object
inside `files` (a `diff --git ` line whose path regex fails pushes the
current file and leaves it current). -/
structure PState where
  files : List FileDiff
  curFilePushed : Nat
  currentFile : Option FileDiff
  doneHunks : List Hunk
  curHunkPushed : Nat
  currentHunk : Option Hunk
deriving DecidableEq, Repr

def initPState : PState :=
  { files := [], curFilePushed := 0, currentFile := none,
    doneHunks := [], curHunkPushed := 0, currentHunk := none }

/-- The final `hunks` array of a file: the frozen hunks followed by every
aliased copy of the still-current hunk plus the closing push performed by
`if (currentHunk) currentFile.hunks.push(currentHunk)`. -/
def finalizeHunks (done : List Hunk) (pushed : Nat) : Option Hunk → List Hunk
  | none => done
  | some h => done ++ List.replicate (pushed + 1) h

/-- The `diff --git ` branch: finalize the current hunk into the current
file, push the current file (it stays current, aliased), then start a new
file when the path regex matches. -/
def stepDiffGit (st : PState) (line : List Char) : PState :=
  if ("diff --git ".toList).isPrefixOf line then
    let st1 :=
      match st.currentFile with
      | none => st
      | some _ =>
        { st with doneHunks := finalizeHunks st.doneHunks st.curHunkPushed st.currentHunk,
                  currentHunk := none, curHunkPushed := 0,
                  curFilePushed := st.curFilePushed + 1 }
    match matchDiffGit line with
    | none => st1
    | some (o, n) =>
      let files1 :=
        match st1.currentFile with
        | none => st1.files
        | some f => st1.files ++ List.replicate st1.curFilePushed { f with hunks := st1.doneHunks }
      { files := files1, curFilePushed := 0,
        currentFile := some { oldPath := String.mk o, newPath := String.mk n,
                              type := FileType.modified, hunks := [],
                              additions := 0, deletions := 0, isBinary := false },
        doneHunks := [], curHunkPushed := 0, currentHunk := none }
  else st

/-- The `new file mode` branch. -/
def stepNewFile (st : PState) (line : List Char) : PState :=
  match st.currentFile with
  | some f =>
    if ("new file mode".toList).isPrefixOf line then
      { st with currentFile := some { f with type := FileType.added, oldPath := "/dev/null" } }
    else st
  | none => st

/-- The `deleted file mode` branch. -/
def stepDeleted (st : PState) (line : List Char) : PState :=
  match st.currentFile with
  | some f =>
    if ("deleted file mode".toList).isPrefixOf line then
      { st with currentFile := some { f with type := FileType.deleted, newPath := "/dev/null" } }
    else st
  | none => st

/-- The `rename from` branch. -/
def stepRename (st : PState) (line : List Char) : PState :=
  match st.currentFile with
  | some f =>
    if ("rename from".toList).isPrefixOf line then
      { st with currentFile := some { f with type := FileType.renamed } }
    else st
  | none => st

/-- The `Binary files ... differ` branch. -/
def stepBinary (st : PState) (line : List Char) : PState :=
  match st.currentFile with
  | some f =>
    if isBinaryMarker line then
      { st with currentFile := some { f with isBinary := true } }
    else st
  | none => st

/-- The `@@` branch: push the current hunk (it is not reset), then start a
new hunk only when the header regex matches; on a failed match the pushed
hunk object remains the current hunk. -/
def stepHunk (st : PState) (line : List Char) : PState :=
  if ("@@".toList).isPrefixOf line ∧ st.currentFile.isSome then
    let pushed := if st.currentHunk.isSome then st.curHunkPushed + 1 else st.curHunkPushed
    match matchHunkHeader line with
    | none => { st with curHunkPushed := pushed }
    | some h =>
      let done :=
        match st.currentHunk with
        | none => st.doneHunks
        | some old => st.doneHunks ++ List.replicate pushed old
      { st with doneHunks := done, curHunkPushed := 0, currentHunk := some h }
  else st

/-- The hunk-content branch: classify `+`/`-`/space lines into the current
hunk (a space line only once the hunk already holds a line), skipping
everything else. -/
def stepContent (st : PState) (line : List Char) : PState :=
  match st.currentHunk, st.currentFile with
  | some h, some f =>
    if f.isBinary then st
    else if ("+".toList).isPrefixOf line ∧ ¬ ("+++".toList).isPrefixOf line then
      { st with
        currentHunk := some { h with lines := h.lines ++ [{ type := LineType.add, content := String.mk (line.drop 1) }] },
        currentFile := some { f with additions := f.additions + 1 } }
    else if ("-".toList).isPrefixOf line ∧ ¬ ("---".toList).isPrefixOf line then
      { st with
        currentHunk := some { h with lines := h.lines ++ [{ type := LineType.del, content := String.mk (line.drop 1) }] },
        currentFile := some { f with deletions := f.deletions + 1 } }
    else if (" ".toList).isPrefixOf line ∧ h.lines ≠ [] then
      { st with
        currentHunk := some { h with lines := h.lines ++ [{ type := LineType.context, content := String.mk (line.drop 1) }] } }
    else st
  | _, _ => st

/-- One iteration of the `while` loop of `parseFiles`, in source order. -/
def step (st : PState) (line : List Char) : PState :=
  stepContent
    (stepHunk
      (stepBinary
        (stepRename
          (stepDeleted
            (stepNewFile (stepDiffGit st line) line) line) line) line) line) line

/-- The trailing `// Save last file` block of `parseFiles`. -/
def finalizeFiles (st : PState) : List FileDiff :=
  match st.currentFile with
  | none => st.files
  | some f =>
    let fFinal := { f with hunks := finalizeHunks st.doneHunks st.curHunkPushed st.currentHunk }
    st.files ++ List.replicate st.curFilePushed fFinal ++ [fFinal]

/-- `parseFiles(lines)`. -/
def parseFiles (lines : List (List Char)) : List FileDiff :=
  finalizeFiles (lines.foldl step initPState)

/-- `calculateStats(files)`. -/
def calculateStats (files : List FileDiff) : DiffStats :=
  { filesChanged := files.length,
    additions := files.foldl (fun a f => a + f.additions) 0,
    deletions := files.foldl (fun a f => a + f.deletions) 0 }

/-- Match of the anchored regex `^From ([0-9a-f]{40})`: exactly forty
lowercase-hex characters captured right after `From `. -/
def matchFromHash (line : List Char) : Option (List Char) :=
  if ("From ".toList).isPrefixOf line then
    let t := line.drop 5
    let h := t.take 40
    if h.length = 40 ∧ h.all isHexLowerChar then some h else none
  else none

/-- What the lazy group `(.+?)>` captures at the head of `cs`: the shortest
nonempty prefix followed by a `>` — the group itself may contain `>`
characters (its first character in particular) but no line terminator,
which `.` cannot match. -/
def emailTake : List Char → Option (List Char)
  | [] => none
  | c :: rest =>
    if isLineTerminator c = true then none
    else if rest.head? = some ('>') then some [c]
    else (emailTake rest).map (fun em => c :: em)

/-- The lazy split of `(.+?) <(.+?)>` after `From: `: the name group takes
the fewest characters (no line terminators, which `.` cannot match) such
that ` <` follows and a later `>` closes a nonempty email group. -/
def authorSplit (g1 : List Char) : List Char → Option (List Char × List Char)
  | [] => none
  | c :: rest =>
    if isLineTerminator c = true then none
    else
      (if (" <".toList).isPrefixOf rest then
        match emailTake (rest.drop 2) with
        | some em => some (g1 ++ [c], em)
        | none => none
       else none) <|> authorSplit (g1 ++ [c]) rest

/-- Test of the anchored regex `/^\s*\(.*\)$/`: optional leading whitespace,
then an opening parenthesis, the final character is a closing parenthesis,
and the characters between them contain no line terminator (all `.*` can
match). -/
def isRefsLine (line : List Char) : Bool :=
  ((line.dropWhile jsIsWhitespace).head? = some '(') && (line.getLast? = some ')') &&
    ((line.dropWhile jsIsWhitespace).drop 1).dropLast.all (fun c => !(isLineTerminator c))

/-- Leftmost match of `\(([^)]+)\)`: the first `(` that is followed by a
nonempty run of non-`)` characters and then a `)`. -/
def refsGroup : List Char → Option (List Char)
  | [] => none
  | c :: rest =>
    if c = '(' then
      let run := rest.takeWhile (fun d => ¬ d = ')')
      if run ≠ [] ∧ run.length < rest.length then some run else refsGroup rest
    else refsGroup rest

/-- Split a character list on `,` (the `split(',')` of the refs branch). -/
def splitOnComma : List Char → List (List Char)
  | [] => [[]]
  | c :: rest =>
    if c = ',' then [] :: splitOnComma rest
    else
      match splitOnComma rest with
      | [] => [[c]]
      | l :: ls => (c :: l) :: ls

/-- Join character-list pieces with single spaces (`messageLines.join(' ')`). -/
def joinWithSpace : List (List Char) → List Char
  | [] => []
  | [l] => l
  | l :: ls => l ++ ' ' :: joinWithSpace ls

/-- Accumulator of the metadata scan loop. -/
structure MetaState where
  md : CommitMetadata
  inMessage : Bool
  messageLines : List (List Char)
deriving DecidableEq, Repr

def initMetaState : MetaState :=
  { md := { commitHash := none, author := none, authorEmail := none,
            date := none, message := "", refs := [] },
    inMessage := false, messageLines := [] }

/-- One iteration of the metadata scan loop of `extractMetadata`, in source
order; the `Subject:` branch `continue`s past the message-accumulation and
refs branches. -/
def metaStep (st : MetaState) (line : List Char) : MetaState :=
  let md0 := st.md
  let md1 :=
    match matchFromHash line with
    | some h => { md0 with commitHash := some (String.mk h) }
    | none => md0
  let md2 :=
    if ("From: ".toList).isPrefixOf line then
      match authorSplit [] (line.drop 6) with
      | some (nm, em) => { md1 with author := some (String.mk nm), authorEmail := some (String.mk em) }
      | none => { md1 with author := some (String.mk (trimChars (line.drop 6))) }
    else md1
  let md3 :=
    if ("Date: ".toList).isPrefixOf line then
      { md2 with date := some (String.mk (trimChars (line.drop 6))) }
    else md2
  if ("Subject: ".toList).isPrefixOf line then
    { md := md3, inMessage := true,
      messageLines := st.messageLines ++ [trimChars (line.drop 9)] }
  else
    let st1 :=
      if st.inMessage then
        if trimChars line = [] ∨ ("---".toList).isPrefixOf line then
          { md := md3, inMessage := false, messageLines := st.messageLines }
        else
          { md := md3, inMessage := true, messageLines := st.messageLines ++ [trimChars line] }
      else { md := md3, inMessage := st.inMessage, messageLines := st.messageLines }
    if isRefsLine line then
      match refsGroup line with
      | some g =>
        { st1 with md := { st1.md with refs := (splitOnComma g).map (fun r => String.mk (trimChars r)) } }
      | none => st1
    else st1

/-- `extractMetadata(lines)`: scan at most the first fifty lines, then join
the accumulated message pieces. -/
def extractMetadata (lines : List (List Char)) : CommitMetadata :=
  let st := (lines.take 50).foldl metaStep initMetaState
  { st.md with message := String.mk (trimChars (joinWithSpace st.messageLines)) }

inductive ParseError where
  | invalidInput : ParseError
deriving DecidableEq, Repr

/-- Input values seen by `parse` and `isValidPatch`: `none` models an absent
(`null`/`undefined`) or non-string argument, `some s` a string. -/
def JSInput : Type := Option String

/-- `parse(patchText)`: reject an absent, non-string or empty input, then
split into lines, extract metadata, parse files and derive statistics. -/
def parse : Option String → Except ParseError ParsedPatch
  | none => Except.error ParseError.invalidInput
  | some s =>
    if s = "" then Except.error ParseError.invalidInput
    else
      let lines := splitOnNl s.data
      let files := parseFiles lines
      Except.ok { metadata := extractMetadata lines, files := files,
                  stats := calculateStats files, raw := s }

/-- Multiline-anchor regex test `/^pat/m`: `pat` matches at the start of
the string or right after any ECMAScript line terminator (LF, CR, LS, PS). -/
def mlTestAux (pat : List Char) : List Char → Bool
  | [] => false
  | c :: rest => (isLineTerminator c && pat.isPrefixOf rest) || mlTestAux pat rest

def mlTest (pat s : List Char) : Bool :=
  pat.isPrefixOf s || mlTestAux pat s

/-- The segments of a character list delimited by ECMAScript line
terminators: segment starts are exactly the positions where a multiline `^`
anchors, so these are the lines a `/^pat/m` test scans. -/
def splitOnTerm : List Char → List (List Char)
  | [] => [[]]
  | c :: rest =>
    if isLineTerminator c = true then [] :: splitOnTerm rest
    else
      match splitOnTerm rest with
      | [] => [[c]]
      | l :: ls => (c :: l) :: ls

/-- `isValidPatch(patchText)`: false on absent, non-string or falsy input,
otherwise test the four multiline indicator regexes
`/^diff --git/m`, `/^--- /m`, `/^\+\+\+ /m`, `/^@@ /m`. -/
def isValidPatch : Option String → Bool
  | none => false
  | some s =>
    if s = "" then false
    else
      mlTest ("diff --git".toList) s.data || mlTest ("--- ".toList) s.data ||
      mlTest ("+++ ".toList) s.data || mlTest ("@@ ".toList) s.data

/-- The regex `/\.([^.]+)$/` of `getFileExtension`: the characters after the
last dot, empty when there is no dot or nothing follows it. -/
def extAfterLastDot (cs : List Char) : List Char :=
  let r := cs.reverse
  let pre := r.takeWhile (fun c => ¬ c = '.')
  if pre.length = r.length then [] else pre.reverse

/-- `getFileExtension(filePath)`. -/
def getFileExtension (filePath : String) : String :=
  String.mk (extAfterLastDot filePath.data)

/-- ASCII model of `String.prototype.toLowerCase` on a single character. -/
def jsToLower (c : Char) : Char :=
  if 65 ≤ c.toNat ∧ c.toNat ≤ 90 then Char.ofNat (c.toNat + 32) else c

def lowerChars (cs : List Char) : List Char := cs.map jsToLower

/-- `filePath.split('/').pop()`: the characters after the last slash. -/
def lastPathComponent (cs : List Char) : List Char :=
  (cs.reverse.takeWhile (fun c => ¬ c = '/')).reverse

/-- The extension-to-language table of `detectLanguage`. -/
def languageMap : List (String × String) :=
  [("js", "javascript"), ("jsx", "jsx"), ("ts", "typescript"), ("tsx", "tsx"),
   ("py", "python"), ("java", "java"), ("go", "go"), ("rs", "rust"),
   ("c", "c"), ("cpp", "cpp"), ("cc", "cpp"), ("cxx", "cpp"), ("h", "c"),
   ("hpp", "cpp"), ("cs", "csharp"), ("php", "php"), ("rb", "ruby"),
   ("css", "css"), ("scss", "scss"), ("sass", "sass"), ("less", "less"),
   ("html", "markup"), ("xml", "markup"), ("svg", "markup"),
   ("md", "markdown"), ("json", "json"), ("yaml", "yaml"), ("yml", "yaml"),
   ("toml", "toml"), ("sh", "bash"), ("bash", "bash"), ("zsh", "bash"),
   ("sql", "sql"), ("dockerfile", "docker"), ("makefile", "makefile")]

/-- `detectLanguage(filePath)`: lowercase extension lookup with
whole-filename special cases checked first. -/
def detectLanguage (filePath : String) : String :=
  let ext := String.mk (lowerChars (extAfterLastDot filePath.data))
  let filename := String.mk (lowerChars (lastPathComponent filePath.data))
  if filename = "dockerfile" then "docker"
  else if filename = "makefile" then "makefile"
  else if filename = ".gitignore" then "git"
  else ((languageMap.find? (fun p => p.1 == ext)).map (fun p => p.2)).getD "plaintext"

/-- `groupFilesByDirectory` effective path selection (needed only to keep
the embedded API complete). -/
def effectivePath (f : FileDiff) : String :=
  if f.newPath ≠ "/dev/null" then f.newPath else f.oldPath

/-- JavaScript numbers restricted to the values arising in
`formatRelativeTime`: `none` is `NaN` (the result of arithmetic on an
Invalid Date), `some n` an integer. -/
def JSNum : Type := Option Int

def jsSub (a b : Option Int) : Option Int :=
  match a, b with
  | some x, some y => some (x - y)
  | _, _ => none

/-- `Math.floor(a / k)` for integer `a` and positive integer `k`;
`Math.floor(NaN)` is `NaN`. -/
def jsFloorDiv (a : Option Int) (k : Int) : Option Int :=
  match a with
  | some x => some (Int.fdiv x k)
  | none => none

/-- `a < k` on JavaScript numbers: every comparison with `NaN` is false. -/
def jsLt (a : Option Int) (k : Int) : Bool :=
  match a with
  | some x => decide (x < k)
  | none => false

/-- `a !== 1` on JavaScript numbers (`NaN !== 1` is true). -/
def jsNeOne (a : Option Int) : Bool :=
  match a with
  | some x => decide (¬ x = 1)
  | none => true

/-- Template-literal rendering of a JavaScript number (`NaN` prints as
`NaN`). -/
def jsNumToString (a : Option Int) : String :=
  match a with
  | some x => toString x
  | none => "NaN"

def pluralS (a : Option Int) : String :=
  if jsNeOne a then "s" else ""

/-- `formatRelativeTime(dateString)`.  `dateMs` is the environment-supplied
result of `new Date(dateString).getTime()` (`none` for an Invalid Date) and
`nowMs` the current clock; the function itself is the literal threshold
cascade of the source. -/
def formatRelativeTime (dateMs : Option Int) (nowMs : Int) (dateString : String) : String :=
  if dateString = "" then ""
  else
    let diffMs := jsSub (some nowMs) dateMs
    let diffSec := jsFloorDiv diffMs 1000
    let diffMin := jsFloorDiv diffSec 60
    let diffHour := jsFloorDiv diffMin 60
    let diffDay := jsFloorDiv diffHour 24
    let diffWeek := jsFloorDiv diffDay 7
    let diffMonth := jsFloorDiv diffDay 30
    let diffYear := jsFloorDiv diffDay 365
    if jsLt diffSec 60 then "just now"
    else if jsLt diffMin 60 then jsNumToString diffMin ++ " minute" ++ pluralS diffMin ++ " ago"
    else if jsLt diffHour 24 then jsNumToString diffHour ++ " hour" ++ pluralS diffHour ++ " ago"
    else if jsLt diffDay 7 then jsNumToString diffDay ++ " day" ++ pluralS diffDay ++ " ago"
    else if jsLt diffWeek 4 then jsNumToString diffWeek ++ " week" ++ pluralS diffWeek ++ " ago"
    else if jsLt diffMonth 12 then jsNumToString diffMonth ++ " month" ++ pluralS diffMonth ++ " ago"
    else jsNumToString diffYear ++ " year" ++ pluralS diffYear ++ " ago"

/-- Number of `add`-typed lines of one hunk. -/
def hunkAdds (h : Hunk) : Nat :=
  (h.lines.filter (fun l => decide (l.type = LineType.add))).length

/-- Number of `del`-typed lines of one hunk. -/
def hunkDels (h : Hunk) : Nat :=
  (h.lines.filter (fun l => decide (l.type = LineType.del))).length

/-- Total `add`-typed lines across a hunk list. -/
def sumHunkAdds (hs : List Hunk) : Nat := (hs.map hunkAdds).sum

/-- Total `del`-typed lines across a hunk list. -/
def sumHunkDels (hs : List Hunk) : Nat := (hs.map hunkDels).sum

/-- A file whose `additions`/`deletions` counters agree with its hunks. -/
def ConsistentFile (f : FileDiff) : Prop :=
  f.additions = sumHunkAdds f.hunks ∧ f.deletions = sumHunkDels f.hunks

/-- The `add`/`del` contribution of the still-current hunk. -/
def curAdds (st : PState) : Nat :=
  match st.currentHunk with
  | none => 0
  | some h => hunkAdds h

def curDels (st : PState) : Nat :=
  match st.currentHunk with
  | none => 0
  | some h => hunkDels h

/-- Loop invariant of `parseFiles` on inputs whose `@@` lines all match the
hunk-header grammar: no aliased hunk pushes are pending, every emitted file
is consistent, and the current file's counters equal the lines accumulated
in its frozen hunks plus in the current hunk. -/
def CountInv (st : PState) : Prop :=
  (∀ f ∈ st.files, ConsistentFile f) ∧
  st.curHunkPushed = 0 ∧
  (∀ f, st.currentFile = some f →
      f.additions = sumHunkAdds st.doneHunks + curAdds st ∧
      f.deletions = sumHunkDels st.doneHunks + curDels st) ∧
  (st.currentFile = none → st.doneHunks = [] ∧ st.currentHunk = none)

/-- A parser state that already holds a binary-flagged file, either among
the emitted files or as the current file; every step preserves this, which
is how a `Binary files` marker survives arbitrary later lines. -/
def HasBin (st : PState) : Prop :=
  (∃ f ∈ st.files, f.isBinary = true) ∨
  (∃ f, st.currentFile = some f ∧ f.isBinary = true)

/-- Lines the claim about malformed hunk headers calls plain content lines:
lines that are neither file headers, nor mode/rename/binary markers, nor
`@@` lines. -/
def isPlainContentLine (l : List Char) : Bool :=
  !(("diff --git ".toList).isPrefixOf l) && !(("new file mode".toList).isPrefixOf l) &&
  !(("deleted file mode".toList).isPrefixOf l) && !(("rename from".toList).isPrefixOf l) &&
  !(isBinaryMarker l) && !(("@@".toList).isPrefixOf l)

/-- Input exercising a malformed `@@` line while a hunk is open. -/
def patchC1 : String :=
  "diff --git a/f.txt b/f.txt\n@@ -1,1 +1,1 @@\n+a\n@@bad\n+b"

/-- The minimal single-file scenario of the specification. -/
def patchC3 : String :=
  "diff --git a/foo.txt b/foo.txt\nindex 123..456 100644\n--- a/foo.txt\n+++ b/foo.txt\n@@ -1,2 +1,2 @@\n line one\n-old line\n+new line"

/-- A binary file section followed by a well-formed hunk header. -/
def patchC4 : String :=
  "diff --git a/x.png b/x.png\nBinary files a/x.png and b/x.png differ\n@@ -1,1 +1,1 @@"

/-- A well-formed hunk, then a malformed `@@` line, then more content. -/
def patchC5 : String :=
  "diff --git a/g.txt b/g.txt\n@@ -1,1 +1,1 @@\n+x\n@@oops\n+y"

/-- A well-formed single-file patch used as a witness input. -/
def patchW : String :=
  "diff --git a/w.txt b/w.txt\n@@ -1 +1,2 @@\n+q\n+r\n-z"

/-- A placeholder result used to project `Except` values in closed witness
statements. -/
def emptyParsedPatch : ParsedPatch :=
  { metadata := { commitHash := none, author := none, authorEmail := none,
                  date := none, message := "", refs := [] },
    files := [], stats := { filesChanged := 0, additions := 0, deletions := 0 },
    raw := "" }

/-- A fixture file used in closed witness statements. -/
def wFile : FileDiff :=
  { oldPath := "a.txt", newPath := "a.txt", type := FileType.modified,
    hunks := [], additions := 0, deletions := 0, isBinary := false }

/-- A fixture hunk used in closed witness statements. -/
def wHunk : Hunk :=
  { oldStart := 1, oldLines := 1, newStart := 1, newLines := 1, heading := "",
    lines := [{ type := LineType.add, content := "x" }] }

theorem foldl_add_sum (g : FileDiff → Nat) :
    ∀ (l : List FileDiff) (n : Nat), l.foldl (fun a f => a + g f) n = n + (l.map g).sum := by
  intro l
  induction l with
  | nil => intro n; simp
  | cons x xs ih =>
    intro n
    simp only [List.foldl_cons, List.map_cons, List.sum_cons, ih (n + g x)]
    omega

/-- Claim C7: `parse` fails with `InvalidInput` exactly when the input is
absent, non-textual (both modelled by `none`) or the empty string, and on
every non-empty string it returns a `ParsedPatch` whose `raw` field is the
input itself; the guard runs before any scanning, so no partial result
exists in the error case. -/
theorem parse_invalid_input_iff :
    ∀ v : Option String,
      (parse v = Except.error ParseError.invalidInput ↔ (v = none ∨ v = some "")) ∧
      (∀ s, ¬ s = "" → v = some s → ∃ r, parse v = Except.ok r ∧ r.raw = s) := by
  intro v
  match v with
  | none => simp [parse]
  | some s =>
    by_cases hs : s = ""
    · subst hs
      constructor
      · simp [parse]
      · intro t ht hts
        exact absurd (Option.some.inj hts).symm ht
    · constructor
      · simp [parse, hs]
      · intro t ht hts
        obtain rfl : s = t := Option.some.inj hts
        exact ⟨{ metadata := extractMetadata (splitOnNl s.data),
                 files := parseFiles (splitOnNl s.data),
                 stats := calculateStats (parseFiles (splitOnNl s.data)),
                 raw := s },
               by simp [parse, hs], rfl⟩

/-- Claim C7 witness: a concrete non-empty input parses successfully and a
concrete empty input is rejected. -/
theorem parse_invalid_input_iff_witness :
    (∃ r, parse (some ("x")) = Except.ok r ∧ r.raw = "x") ∧
      parse (some ("")) = Except.error ParseError.invalidInput :=
  ⟨(parse_invalid_input_iff (some ("x"))).2 "x" (by decide) rfl,
   (parse_invalid_input_iff (some (""))).1.mpr (Or.inr rfl)⟩

/-- Claim C2: for every accepted input, the derived statistics aggregate the
file list exactly: `filesChanged` is the number of files and
`additions`/`deletions` are the sums of the per-file counters. -/
theorem parse_stats_aggregate :
    ∀ (s : String) (r : ParsedPatch), ¬ s = "" → parse (some s) = Except.ok r →
      r.stats.filesChanged = r.files.length ∧
      r.stats.additions = (r.files.map (fun f => f.additions)).sum ∧
      r.stats.deletions = (r.files.map (fun f => f.deletions)).sum := by
  intro s r hs hok
  have hr : r = { metadata := extractMetadata (splitOnNl s.data),
                  files := parseFiles (splitOnNl s.data),
                  stats := calculateStats (parseFiles (splitOnNl s.data)),
                  raw := s } := by
    simp [parse, hs] at hok
    exact hok.symm
  subst hr
  refine ⟨rfl, ?_, ?_⟩
  · simp [calculateStats, foldl_add_sum]
  · simp [calculateStats, foldl_add_sum]

/-- Claim C2 witness: the aggregate equations hold on a concrete parse. -/
theorem parse_stats_aggregate_witness :
    ((parse (some patchW)).toOption.getD emptyParsedPatch).stats.filesChanged =
        ((parse (some patchW)).toOption.getD emptyParsedPatch).files.length ∧
      ((parse (some patchW)).toOption.getD emptyParsedPatch).stats.additions =
        (((parse (some patchW)).toOption.getD emptyParsedPatch).files.map (fun f => f.additions)).sum ∧
      ((parse (some patchW)).toOption.getD emptyParsedPatch).stats.deletions =
        (((parse (some patchW)).toOption.getD emptyParsedPatch).files.map (fun f => f.deletions)).sum :=
  parse_stats_aggregate patchW ((parse (some patchW)).toOption.getD emptyParsedPatch)
    (by decide) rfl

/-- Claim C9: `isValidPatch` returns `false` on an absent or non-string
input (modelled by `none`) and on the empty string, and being a total
function it never throws, whereas `parse` raises `InvalidInput` on those
same inputs. -/
theorem isValidPatch_absent_false :
    isValidPatch none = false ∧ isValidPatch (some ("")) = false ∧
      parse none = Except.error ParseError.invalidInput ∧
      parse (some ("")) = Except.error ParseError.invalidInput :=
  ⟨rfl, by decide, rfl, rfl⟩

/-- Claim C6: on a date string the environment cannot parse (`none`, the
Invalid-Date case), `formatRelativeTime` returns the string `NaN years ago`
for every clock value — not the original input — because every comparison
with `NaN` is false and the final template renders `NaN`. -/
theorem formatRelativeTime_invalid_nan :
    ∀ (nowMs : Int) (s : String), ¬ s = "" →
      formatRelativeTime none nowMs s = "NaN years ago" := by
  intro nowMs s hs
  simp [formatRelativeTime, hs, jsSub, jsFloorDiv, jsLt, jsNumToString, pluralS, jsNeOne]

/-- Claim C6 witness: the concrete unparseable input `not-a-date` comes back
as `NaN years ago`, not unchanged. -/
theorem formatRelativeTime_invalid_nan_witness :
    formatRelativeTime none 0 ("not-a-date") = "NaN years ago" ∧
      ¬ formatRelativeTime none 0 ("not-a-date") = "not-a-date" :=
  ⟨formatRelativeTime_invalid_nan 0 "not-a-date" (by decide),
   by rw [formatRelativeTime_invalid_nan 0 "not-a-date" (by decide)]; decide⟩

/-- Claim C3 counterexample: on the minimal scenario input the first hunk's
line list is the two-element `[del, add]` sequence — the leading context
line ` line one` is dropped by the guard requiring a nonempty hunk before a
space line is recorded — so it is not the claimed three-element sequence. -/
theorem minimal_scenario_cex :
    (parse (some patchC3)).toOption.map
        (fun r => r.files.map (fun f => f.hunks.map (fun h => h.lines))) =
      some [[[{ type := LineType.del, content := "old line" },
              { type := LineType.add, content := "new line" }]]] ∧
    ¬ ((parse (some patchC3)).toOption.map
          (fun r => r.files.map (fun f => f.hunks.map (fun h => h.lines))) =
        some [[[{ type := LineType.context, content := "line one" },
                { type := LineType.del, content := "old line" },
                { type := LineType.add, content := "new line" }]]]) := by
  constructor
  · decide
  · decide

/-- Claim C3 amended: on the minimal scenario input, `parse` yields exactly
one file with one addition and one deletion, and the hunk's lines are
`[del old line, add new line]` — the leading context line is dropped because
a space-prefixed line is only recorded once the hunk already holds a line. -/
theorem minimal_scenario_eval :
    (parse (some patchC3)).toOption.map (fun r => r.files.length) = some 1 ∧
    (parse (some patchC3)).toOption.map
        (fun r => r.files.map (fun f => (f.additions, f.deletions))) = some [(1, 1)] ∧
    (parse (some patchC3)).toOption.map
        (fun r => r.files.map (fun f => f.hunks.map (fun h => h.lines))) =
      some [[[{ type := LineType.del, content := "old line" },
              { type := LineType.add, content := "new line" }]]] := by
  refine ⟨by decide, by decide, by decide⟩

/-- Claim C4 counterexample: a binary file section directly followed by a
well-formed `@@` header produces `isBinary = true` and zero counters, but
its `hunks` sequence is not empty — it holds one hunk with no lines. -/
theorem binary_file_cex :
    (parse (some patchC4)).toOption.map
        (fun r => r.files.map (fun f => (f.isBinary, f.additions, f.deletions, f.hunks))) =
      some [(true, 0, 0,
             [{ oldStart := 1, oldLines := 1, newStart := 1, newLines := 1,
                heading := "", lines := [] }])] ∧
    ¬ ((parse (some patchC4)).toOption.map (fun r => r.files.map (fun f => f.hunks)) =
        some [[]]) := by
  constructor
  · decide
  · decide

/-- Claim C5 counterexample: after the malformed header `@@oops` the content
line `+y` is appended to the still-current hunk — it appears in `Hunk.lines`
and increments `additions` to 2 — and that hunk is materialised twice in the
file's hunk list, so the line is not dropped as claimed. -/
theorem malformed_hunk_header_cex :
    (parse (some patchC5)).toOption.map
        (fun r => r.files.map (fun f => (f.additions, f.hunks.map (fun h => h.lines)))) =
      some [(2, [[{ type := LineType.add, content := "x" },
                  { type := LineType.add, content := "y" }],
                 [{ type := LineType.add, content := "x" },
                  { type := LineType.add, content := "y" }]])] ∧
    ¬ ((parse (some patchC5)).toOption.map (fun r => r.files.map (fun f => f.additions)) =
        some [1]) := by
  constructor
  · decide
  · decide

/-- Claim C1 counterexample: on an input with a malformed `@@` line inside
an open hunk, the only file has `additions = 2` while the `add`-typed lines
summed across its (duplicated) hunks number 4, so the claimed count
consistency fails. -/
theorem parse_count_consistency_cex :
    (parse (some patchC1)).toOption.map
        (fun r => r.files.map (fun f => (f.additions, sumHunkAdds f.hunks))) =
      some [(2, 4)] ∧
    ¬ ((parse (some patchC1)).toOption.map
          (fun r => r.files.all (fun f => decide (f.additions = sumHunkAdds f.hunks))) =
        some true) := by
  constructor
  · decide
  · decide

/-- Claim C8 counterexample: the input `---a` is a single line starting
with `---`, which the claim says suffices, yet `isValidPatch` rejects it —
the source regex requires a trailing space (`/^--- /m`). -/
theorem isValidPatch_dash_prefix_cex :
    (splitOnTerm (String.data ("---a"))).any (fun l => ("---".toList).isPrefixOf l) = true ∧
      isValidPatch (some ("---a")) = false := by
  constructor
  · decide
  · decide

theorem splitOnTerm_ne_nil : ∀ cs : List Char, splitOnTerm cs ≠ [] := by
  intro cs
  induction cs with
  | nil => simp [splitOnTerm]
  | cons c rest ih =>
    simp only [splitOnTerm]
    split
    · simp
    · match h : splitOnTerm rest with
      | [] => exact absurd h ih
      | l :: ls => simp

theorem head_splitOnTerm : ∀ cs : List Char,
    (splitOnTerm cs).head? = some (cs.takeWhile (fun c => !(isLineTerminator c))) := by
  intro cs
  induction cs with
  | nil => simp [splitOnTerm]
  | cons c rest ih =>
    simp only [splitOnTerm, List.takeWhile]
    by_cases hc : isLineTerminator c = true
    · simp [hc]
    · rw [Bool.not_eq_true] at hc
      simp only [hc, Bool.false_eq_true, if_false, Bool.not_false, if_true]
      match h : splitOnTerm rest with
      | [] => exact absurd h (splitOnTerm_ne_nil rest)
      | l :: ls =>
        rw [h] at ih
        simp only [List.head?_cons, Option.some.injEq] at ih
        simp [hc, ih]

theorem isPrefixOf_nil_iff : ∀ pat : List Char, pat.isPrefixOf ([] : List Char) = true ↔ pat = [] := by
  intro pat
  cases pat with
  | nil => simp [List.isPrefixOf]
  | cons p ps => simp [List.isPrefixOf]

theorem isPrefixOf_takeWhile_notTerm :
    ∀ (pat s : List Char), (∀ c ∈ pat, isLineTerminator c = false) →
      pat.isPrefixOf s = pat.isPrefixOf (s.takeWhile (fun c => !(isLineTerminator c))) := by
  intro pat
  induction pat with
  | nil => intro s _; simp [List.isPrefixOf]
  | cons p ps ih =>
    intro s hp
    have hpf : isLineTerminator p = false := hp p (by simp)
    cases s with
    | nil => simp
    | cons c cs =>
      by_cases hc : isLineTerminator c = true
      · have hpc : ¬ p = c := by
          intro he
          rw [he, hc] at hpf
          exact absurd hpf (by simp)
        simp [List.takeWhile, hc, List.isPrefixOf, hpc]
      · rw [Bool.not_eq_true] at hc
        have hps : ∀ x ∈ ps, isLineTerminator x = false := fun x hx => hp x (by simp [hx])
        simp [List.takeWhile, hc, List.isPrefixOf, ih cs hps]

theorem mlTestAux_iff :
    ∀ (s pat : List Char), (∀ c ∈ pat, isLineTerminator c = false) →
      (mlTestAux pat s = true ↔ ∃ l ∈ (splitOnTerm s).tail, pat.isPrefixOf l = true) := by
  intro s
  induction s with
  | nil => intro pat _; simp [mlTestAux, splitOnTerm]
  | cons c cs ih =>
    intro pat hp
    by_cases hc : isLineTerminator c = true
    · match h : splitOnTerm cs with
      | [] => exact absurd h (splitOnTerm_ne_nil cs)
      | l :: ls =>
        have hhead : l = cs.takeWhile (fun c => !(isLineTerminator c)) := by
          have := head_splitOnTerm cs
          rw [h] at this
          simpa using this
        have hpref : pat.isPrefixOf cs = pat.isPrefixOf l := by
          rw [hhead]
          exact isPrefixOf_takeWhile_notTerm pat cs hp
        have ihcs := ih pat hp
        rw [h] at ihcs
        simp only [List.tail_cons] at ihcs
        simp only [splitOnTerm, hc, eq_self_iff_true, if_true, h, List.tail_cons,
          mlTestAux, Bool.or_eq_true, Bool.true_and]
        constructor
        · rintro (hpc | haux)
          · exact ⟨l, by simp, by rw [← hpref]; exact hpc⟩
          · obtain ⟨l2, hl2, hpl2⟩ := ihcs.mp haux
            exact ⟨l2, by simp [hl2], hpl2⟩
        · rintro ⟨l2, hl2, hpl2⟩
          rcases List.mem_cons.mp hl2 with rfl | hl2a
          · exact Or.inl (by rw [hpref]; exact hpl2)
          · exact Or.inr (ihcs.mpr ⟨l2, hl2a, hpl2⟩)
    · rw [Bool.not_eq_true] at hc
      match h : splitOnTerm cs with
      | [] => exact absurd h (splitOnTerm_ne_nil cs)
      | l :: ls =>
        have ihcs := ih pat hp
        rw [h] at ihcs
        simp only [List.tail_cons] at ihcs
        simp only [splitOnTerm, hc, Bool.false_eq_true, if_false, h, mlTestAux,
          Bool.false_and, Bool.false_or, List.tail_cons]
        exact ihcs

theorem mlTest_iff :
    ∀ (s pat : List Char), (∀ c ∈ pat, isLineTerminator c = false) →
      (mlTest pat s = true ↔ ∃ l ∈ splitOnTerm s, pat.isPrefixOf l = true) := by
  intro s pat hp
  match h : splitOnTerm s with
  | [] => exact absurd h (splitOnTerm_ne_nil s)
  | l :: ls =>
    have hhead : l = s.takeWhile (fun c => !(isLineTerminator c)) := by
      have := head_splitOnTerm s
      rw [h] at this
      simpa using this
    have hpref : pat.isPrefixOf s = pat.isPrefixOf l := by
      rw [hhead]
      exact isPrefixOf_takeWhile_notTerm pat s hp
    have haux := mlTestAux_iff s pat hp
    rw [h] at haux
    simp only [List.tail_cons] at haux
    simp only [mlTest, Bool.or_eq_true, hpref, haux]
    constructor
    · rintro (hl | ⟨l2, hl2, hpl2⟩)
      · exact ⟨l, by simp, hl⟩
      · exact ⟨l2, by simp [hl2], hpl2⟩
    · rintro ⟨l2, hl2, hpl2⟩
      rcases List.mem_cons.mp hl2 with rfl | hl2a
      · exact Or.inl hpl2
      · exact Or.inr ⟨l2, hl2a, hpl2⟩

/-- Claim C8 amended: `isValidPatch` returns true iff some line of the text
— lines being the segments delimited by the ECMAScript line terminators at
which the multiline anchor matches (LF, CR, LS, PS) — starts with
`diff --git`, or with `--- ` (trailing space), or with `+++ ` (trailing
space), or with `@@ ` (trailing space); the three-character prefixes
`---`/`+++` alone are not sufficient, unlike the claim's wording; the
claim's two examples behave as stated. -/
theorem isValidPatch_indicator_iff :
    (∀ s : String, isValidPatch (some s) = true ↔
      ∃ l ∈ splitOnTerm s.data,
        (("diff --git".toList).isPrefixOf l = true ∨ ("--- ".toList).isPrefixOf l = true ∨
         ("+++ ".toList).isPrefixOf l = true ∨ ("@@ ".toList).isPrefixOf l = true)) ∧
    isValidPatch (some ("random text")) = false ∧
    isValidPatch (some ("@@ -1 +1 @@")) = true := by
  refine ⟨?_, by decide, by decide⟩
  intro s
  by_cases hs : s = ""
  · subst hs
    constructor
    · intro h
      simp [isValidPatch] at h
    · rintro ⟨l, hl, hp⟩
      have hdata : ("" : String).data = [] := rfl
      rw [hdata] at hl
      simp [splitOnTerm] at hl
      subst hl
      rcases hp with h | h | h | h <;> simp [List.isPrefixOf] at h
  · have e1 := mlTest_iff s.data ("diff --git".toList) (by decide)
    have e2 := mlTest_iff s.data ("--- ".toList) (by decide)
    have e3 := mlTest_iff s.data ("+++ ".toList) (by decide)
    have e4 := mlTest_iff s.data ("@@ ".toList) (by decide)
    simp only [isValidPatch, if_neg hs, Bool.or_eq_true, e1, e2, e3, e4]
    constructor
    · rintro (((⟨l, hl, hp⟩ | ⟨l, hl, hp⟩) | ⟨l, hl, hp⟩) | ⟨l, hl, hp⟩)
      · exact ⟨l, hl, Or.inl hp⟩
      · exact ⟨l, hl, Or.inr (Or.inl hp)⟩
      · exact ⟨l, hl, Or.inr (Or.inr (Or.inl hp))⟩
      · exact ⟨l, hl, Or.inr (Or.inr (Or.inr hp))⟩
    · rintro ⟨l, hl, (hp | hp | hp | hp)⟩
      · exact Or.inl (Or.inl (Or.inl ⟨l, hl, hp⟩))
      · exact Or.inl (Or.inl (Or.inr ⟨l, hl, hp⟩))
      · exact Or.inl (Or.inr ⟨l, hl, hp⟩)
      · exact Or.inr ⟨l, hl, hp⟩

theorem isPrefixOf_eq_append {pat l : List Char} (h : pat.isPrefixOf l = true) :
    ∃ t, l = pat ++ t := by
  rw [List.isPrefixOf_iff_prefix] at h
  obtain ⟨t, ht⟩ := h
  exact ⟨t, ht.symm⟩

theorem stepDiffGit_skip (st : PState) (l : List Char)
    (h : ("diff --git ".toList).isPrefixOf l = false) : stepDiffGit st l = st := by
  unfold stepDiffGit
  rw [h]
  rfl

theorem stepNewFile_skip (st : PState) (l : List Char)
    (h : ("new file mode".toList).isPrefixOf l = false) : stepNewFile st l = st := by
  rcases hcf : st.currentFile with - | f <;> simp only [stepNewFile, hcf] <;> rw [h] <;> rfl

theorem stepDeleted_skip (st : PState) (l : List Char)
    (h : ("deleted file mode".toList).isPrefixOf l = false) : stepDeleted st l = st := by
  rcases hcf : st.currentFile with - | f <;> simp only [stepDeleted, hcf] <;> rw [h] <;> rfl

theorem stepRename_skip (st : PState) (l : List Char)
    (h : ("rename from".toList).isPrefixOf l = false) : stepRename st l = st := by
  rcases hcf : st.currentFile with - | f <;> simp only [stepRename, hcf] <;> rw [h] <;> rfl

theorem stepBinary_skip (st : PState) (l : List Char)
    (h : isBinaryMarker l = false) : stepBinary st l = st := by
  rcases hcf : st.currentFile with - | f <;> simp only [stepBinary, hcf] <;> rw [h] <;> rfl

theorem stepHunk_skip (st : PState) (l : List Char)
    (h : ("@@".toList).isPrefixOf l = false) : stepHunk st l = st := by
  unfold stepHunk
  rw [h]
  simp

theorem stepContent_skip (st : PState) (l : List Char)
    (h1 : ("+".toList).isPrefixOf l = false)
    (h2 : ("-".toList).isPrefixOf l = false)
    (h3 : (" ".toList).isPrefixOf l = false) : stepContent st l = st := by
  rcases hch : st.currentHunk with - | hk <;> rcases hcf : st.currentFile with - | f <;>
    simp only [stepContent, hch, hcf] <;> rw [h1, h2, h3] <;> simp

theorem stepContent_skip_noHunk (st : PState) (l : List Char)
    (h : st.currentHunk = none) : stepContent st l = st := by
  rcases hcf : st.currentFile with - | f <;> simp only [stepContent, h, hcf]

/-- Claim C5 amended: a line starting with `@@` that fails the hunk-header
grammar starts no new hunk; when no hunk is open the parser state is
entirely unchanged, and plain content lines are dropped while no hunk is
open; but when a hunk is open, that hunk is pushed into the current file's
hunk array once more while remaining the current hunk (the pushed entry is
the same aliased object), so subsequent content lines continue to flow into
it rather than being dropped. -/
theorem malformed_hunk_header_step (st : PState) (line : List Char)
    (hl : ("@@".toList).isPrefixOf line = true)
    (hm : matchHunkHeader line = none) :
    (st.currentHunk = none → step st line = st) ∧
    (∀ hk, st.currentFile.isSome = true → st.currentHunk = some hk →
       step st line = { st with curHunkPushed := st.curHunkPushed + 1 }) ∧
    (∀ (st2 : PState) (l2 : List Char), isPlainContentLine l2 = true →
       st2.currentHunk = none → step st2 l2 = st2) := by
  obtain ⟨t, rfl⟩ := isPrefixOf_eq_append hl
  have hdg : ("diff --git ".toList).isPrefixOf ("@@".toList ++ t) = false := rfl
  have hnf : ("new file mode".toList).isPrefixOf ("@@".toList ++ t) = false := rfl
  have hdel : ("deleted file mode".toList).isPrefixOf ("@@".toList ++ t) = false := rfl
  have hrn : ("rename from".toList).isPrefixOf ("@@".toList ++ t) = false := rfl
  have hbm : isBinaryMarker ("@@".toList ++ t) = false := rfl
  have hpl : ("+".toList).isPrefixOf ("@@".toList ++ t) = false := rfl
  have hmn : ("-".toList).isPrefixOf ("@@".toList ++ t) = false := rfl
  have hsp : (" ".toList).isPrefixOf ("@@".toList ++ t) = false := rfl
  have hat : ("@@".toList).isPrefixOf ("@@".toList ++ t) = true := by
    rw [List.isPrefixOf_iff_prefix]
    exact List.prefix_append _ _
  have hstep : ∀ st0 : PState, step st0 ("@@".toList ++ t) =
      stepContent (stepHunk st0 ("@@".toList ++ t)) ("@@".toList ++ t) := by
    intro st0
    simp only [step, stepDiffGit_skip _ _ hdg, stepNewFile_skip _ _ hnf,
      stepDeleted_skip _ _ hdel, stepRename_skip _ _ hrn, stepBinary_skip _ _ hbm]
  obtain ⟨sf, sfp, scf, sdh, schp, sch⟩ := st
  refine ⟨?_, ?_, ?_⟩
  · intro hch
    simp only at hch
    subst hch
    rw [hstep]
    rcases scf with - | f
    · have hhunk : stepHunk ⟨sf, sfp, none, sdh, schp, none⟩ ("@@".toList ++ t) =
          ⟨sf, sfp, none, sdh, schp, none⟩ := by
        unfold stepHunk
        rw [if_neg]
        intro hand
        simp at hand
      rw [hhunk, stepContent_skip _ _ hpl hmn hsp]
    · have hhunk : stepHunk ⟨sf, sfp, some f, sdh, schp, none⟩ ("@@".toList ++ t) =
          ⟨sf, sfp, some f, sdh, schp, none⟩ := by
        unfold stepHunk
        rw [if_pos ⟨hat, rfl⟩, hm]
        rfl
      rw [hhunk, stepContent_skip _ _ hpl hmn hsp]
  · intro hk hsf hch
    simp only at hch hsf
    subst hch
    rw [hstep]
    rcases scf with - | f
    · simp at hsf
    · have hhunk : stepHunk ⟨sf, sfp, some f, sdh, schp, some hk⟩ ("@@".toList ++ t) =
          ⟨sf, sfp, some f, sdh, schp + 1, some hk⟩ := by
        unfold stepHunk
        rw [if_pos ⟨hat, rfl⟩, hm]
        rfl
      rw [hhunk, stepContent_skip _ _ hpl hmn hsp]
  · intro st2 l2 hpc hch2
    simp only [isPlainContentLine, Bool.and_eq_true, Bool.not_eq_eq_eq_not, Bool.not_true] at hpc
    obtain ⟨⟨⟨⟨⟨c1, c2⟩, c3⟩, c4⟩, c5⟩, c6⟩ := hpc
    simp only [step, stepDiffGit_skip _ _ c1, stepNewFile_skip _ _ c2,
      stepDeleted_skip _ _ c3, stepRename_skip _ _ c4, stepBinary_skip _ _ c5,
      stepHunk_skip _ _ c6, stepContent_skip_noHunk _ _ hch2]

/-- Claim C5 witness: the malformed header `@@oops` leaves a hunk-less state
unchanged, increments the aliased push counter when a hunk is open, and a
plain `+x` content line is dropped when no hunk is open. -/
theorem malformed_hunk_header_step_witness :
    step { files := [], curFilePushed := 0, currentFile := some wFile,
           doneHunks := [], curHunkPushed := 0, currentHunk := none }
        ("@@oops".toList) =
      { files := [], curFilePushed := 0, currentFile := some wFile,
        doneHunks := [], curHunkPushed := 0, currentHunk := none } ∧
    step { files := [], curFilePushed := 0, currentFile := some wFile,
           doneHunks := [], curHunkPushed := 0, currentHunk := some wHunk }
        ("@@oops".toList) =
      { files := [], curFilePushed := 0, currentFile := some wFile,
        doneHunks := [], curHunkPushed := 1, currentHunk := some wHunk } ∧
    step { files := [], curFilePushed := 0, currentFile := some wFile,
           doneHunks := [], curHunkPushed := 0, currentHunk := none }
        ("+x".toList) =
      { files := [], curFilePushed := 0, currentFile := some wFile,
        doneHunks := [], curHunkPushed := 0, currentHunk := none } :=
  ⟨(malformed_hunk_header_step _ _ (by decide) (by decide)).1 rfl,
   (malformed_hunk_header_step _ _ (by decide) (by decide)).2.1 wHunk rfl rfl,
   (malformed_hunk_header_step
      { files := [], curFilePushed := 0, currentFile := some wFile,
        doneHunks := [], curHunkPushed := 0, currentHunk := none }
      ("@@oops".toList) (by decide) (by decide)).2.2 _ _ (by decide) rfl⟩

theorem binsec_step (F : List FileDiff) (f : FileDiff) (l : List Char)
    (h1 : ("diff --git ".toList).isPrefixOf l = false)
    (h2 : ("@@".toList).isPrefixOf l = false) :
    ∃ f2, step { files := F, curFilePushed := 0, currentFile := some f,
                 doneHunks := [], curHunkPushed := 0, currentHunk := none } l =
        { files := F, curFilePushed := 0, currentFile := some f2,
          doneHunks := [], curHunkPushed := 0, currentHunk := none } ∧
      f2.hunks = f.hunks ∧ f2.additions = f.additions ∧ f2.deletions = f.deletions ∧
      f2.isBinary = (f.isBinary || isBinaryMarker l) := by
  have sNF : ∀ g : FileDiff, ∃ g2,
      stepNewFile { files := F, curFilePushed := 0, currentFile := some g,
                    doneHunks := [], curHunkPushed := 0, currentHunk := none } l =
        { files := F, curFilePushed := 0, currentFile := some g2,
          doneHunks := [], curHunkPushed := 0, currentHunk := none } ∧
      g2.hunks = g.hunks ∧ g2.additions = g.additions ∧ g2.deletions = g.deletions ∧
      g2.isBinary = g.isBinary := by
    intro g
    by_cases hn : ("new file mode".toList).isPrefixOf l = true
    · exact ⟨{ g with type := FileType.added, oldPath := "/dev/null" },
        by simp only [stepNewFile, hn, eq_self_iff_true, if_true], rfl, rfl, rfl, rfl⟩
    · rw [Bool.not_eq_true] at hn
      exact ⟨g, by rw [stepNewFile_skip _ _ hn], rfl, rfl, rfl, rfl⟩
  have sDel : ∀ g : FileDiff, ∃ g2,
      stepDeleted { files := F, curFilePushed := 0, currentFile := some g,
                    doneHunks := [], curHunkPushed := 0, currentHunk := none } l =
        { files := F, curFilePushed := 0, currentFile := some g2,
          doneHunks := [], curHunkPushed := 0, currentHunk := none } ∧
      g2.hunks = g.hunks ∧ g2.additions = g.additions ∧ g2.deletions = g.deletions ∧
      g2.isBinary = g.isBinary := by
    intro g
    by_cases hn : ("deleted file mode".toList).isPrefixOf l = true
    · exact ⟨{ g with type := FileType.deleted, newPath := "/dev/null" },
        by simp only [stepDeleted, hn, eq_self_iff_true, if_true], rfl, rfl, rfl, rfl⟩
    · rw [Bool.not_eq_true] at hn
      exact ⟨g, by rw [stepDeleted_skip _ _ hn], rfl, rfl, rfl, rfl⟩
  have sRen : ∀ g : FileDiff, ∃ g2,
      stepRename { files := F, curFilePushed := 0, currentFile := some g,
                   doneHunks := [], curHunkPushed := 0, currentHunk := none } l =
        { files := F, curFilePushed := 0, currentFile := some g2,
          doneHunks := [], curHunkPushed := 0, currentHunk := none } ∧
      g2.hunks = g.hunks ∧ g2.additions = g.additions ∧ g2.deletions = g.deletions ∧
      g2.isBinary = g.isBinary := by
    intro g
    by_cases hn : ("rename from".toList).isPrefixOf l = true
    · exact ⟨{ g with type := FileType.renamed },
        by simp only [stepRename, hn, eq_self_iff_true, if_true], rfl, rfl, rfl, rfl⟩
    · rw [Bool.not_eq_true] at hn
      exact ⟨g, by rw [stepRename_skip _ _ hn], rfl, rfl, rfl, rfl⟩
  have sBin : ∀ g : FileDiff, ∃ g2,
      stepBinary { files := F, curFilePushed := 0, currentFile := some g,
                   doneHunks := [], curHunkPushed := 0, currentHunk := none } l =
        { files := F, curFilePushed := 0, currentFile := some g2,
          doneHunks := [], curHunkPushed := 0, currentHunk := none } ∧
      g2.hunks = g.hunks ∧ g2.additions = g.additions ∧ g2.deletions = g.deletions ∧
      g2.isBinary = (g.isBinary || isBinaryMarker l) := by
    intro g
    by_cases hn : isBinaryMarker l = true
    · exact ⟨{ g with isBinary := true },
        by simp only [stepBinary, hn, eq_self_iff_true, if_true], rfl, rfl, rfl, by simp [hn]⟩
    · rw [Bool.not_eq_true] at hn
      exact ⟨g, by rw [stepBinary_skip _ _ hn], rfl, rfl, rfl, by simp [hn]⟩
  obtain ⟨g1, e1, g1h, g1a, g1d, g1b⟩ := sNF f
  obtain ⟨g2, e2, g2h, g2a, g2d, g2b⟩ := sDel g1
  obtain ⟨g3, e3, g3h, g3a, g3d, g3b⟩ := sRen g2
  obtain ⟨g4, e4, g4h, g4a, g4d, g4b⟩ := sBin g3
  refine ⟨g4, ?_, ?_, ?_, ?_, ?_⟩
  · rw [step, stepDiffGit_skip _ _ h1, e1, e2, e3, e4, stepHunk_skip _ _ h2,
      stepContent_skip_noHunk]
    rfl
  · rw [g4h, g3h, g2h, g1h]
  · rw [g4a, g3a, g2a, g1a]
  · rw [g4d, g3d, g2d, g1d]
  · rw [g4b, g3b, g2b, g1b]

theorem binsec_fold : ∀ (mid : List (List Char)) (F : List FileDiff) (f : FileDiff),
    (∀ l ∈ mid, ("diff --git ".toList).isPrefixOf l = false ∧
        ("@@".toList).isPrefixOf l = false) →
    ∃ f2, List.foldl step
        { files := F, curFilePushed := 0, currentFile := some f,
          doneHunks := [], curHunkPushed := 0, currentHunk := none } mid =
        { files := F, curFilePushed := 0, currentFile := some f2,
          doneHunks := [], curHunkPushed := 0, currentHunk := none } ∧
      f2.hunks = f.hunks ∧ f2.additions = f.additions ∧ f2.deletions = f.deletions ∧
      f2.isBinary = (f.isBinary || mid.any isBinaryMarker) := by
  intro mid
  induction mid with
  | nil =>
    intro F f _
    exact ⟨f, rfl, rfl, rfl, rfl, by simp⟩
  | cons l ls ih =>
    intro F f hmid
    obtain ⟨h1, h2⟩ := hmid l (by simp)
    obtain ⟨f1, e1, f1h, f1a, f1d, f1b⟩ := binsec_step F f l h1 h2
    obtain ⟨f2, e2, f2h, f2a, f2d, f2b⟩ := ih F f1 (fun l2 hl2 => hmid l2 (by simp [hl2]))
    refine ⟨f2, ?_, ?_, ?_, ?_, ?_⟩
    · rw [List.foldl_cons, e1, e2]
    · rw [f2h, f1h]
    · rw [f2a, f1a]
    · rw [f2d, f1d]
    · rw [f2b, f1b, List.any_cons, Bool.or_assoc]

theorem stepNewFile_ok (st : PState) (l : List Char) :
    (stepNewFile st l).files = st.files ∧
    (stepNewFile st l).currentFile.isSome = st.currentFile.isSome ∧
    (HasBin st → HasBin (stepNewFile st l)) := by
  rcases hcf : st.currentFile with - | f
  · simp [stepNewFile, hcf]
  · by_cases hp : ("new file mode".toList).isPrefixOf l = true
    · simp only [stepNewFile, hcf, hp, eq_self_iff_true, if_true]
      refine ⟨by simp, by simp [hcf], ?_⟩
      rintro (⟨g, hg, hb⟩ | ⟨g, hg, hb⟩)
      · exact Or.inl ⟨g, hg, hb⟩
      · rw [hcf] at hg
        obtain rfl := Option.some.inj hg
        exact Or.inr ⟨_, rfl, hb⟩
    · rw [Bool.not_eq_true] at hp
      rw [stepNewFile_skip _ _ hp]
      exact ⟨rfl, by rw [hcf], fun h => h⟩

theorem stepDeleted_ok (st : PState) (l : List Char) :
    (stepDeleted st l).files = st.files ∧
    (stepDeleted st l).currentFile.isSome = st.currentFile.isSome ∧
    (HasBin st → HasBin (stepDeleted st l)) := by
  rcases hcf : st.currentFile with - | f
  · simp [stepDeleted, hcf]
  · by_cases hp : ("deleted file mode".toList).isPrefixOf l = true
    · simp only [stepDeleted, hcf, hp, eq_self_iff_true, if_true]
      refine ⟨by simp, by simp [hcf], ?_⟩
      rintro (⟨g, hg, hb⟩ | ⟨g, hg, hb⟩)
      · exact Or.inl ⟨g, hg, hb⟩
      · rw [hcf] at hg
        obtain rfl := Option.some.inj hg
        exact Or.inr ⟨_, rfl, hb⟩
    · rw [Bool.not_eq_true] at hp
      rw [stepDeleted_skip _ _ hp]
      exact ⟨rfl, by rw [hcf], fun h => h⟩

theorem stepRename_ok (st : PState) (l : List Char) :
    (stepRename st l).files = st.files ∧
    (stepRename st l).currentFile.isSome = st.currentFile.isSome ∧
    (HasBin st → HasBin (stepRename st l)) := by
  rcases hcf : st.currentFile with - | f
  · simp [stepRename, hcf]
  · by_cases hp : ("rename from".toList).isPrefixOf l = true
    · simp only [stepRename, hcf, hp, eq_self_iff_true, if_true]
      refine ⟨by simp, by simp [hcf], ?_⟩
      rintro (⟨g, hg, hb⟩ | ⟨g, hg, hb⟩)
      · exact Or.inl ⟨g, hg, hb⟩
      · rw [hcf] at hg
        obtain rfl := Option.some.inj hg
        exact Or.inr ⟨_, rfl, hb⟩
    · rw [Bool.not_eq_true] at hp
      rw [stepRename_skip _ _ hp]
      exact ⟨rfl, by rw [hcf], fun h => h⟩

theorem stepBinary_ok (st : PState) (l : List Char) :
    (stepBinary st l).files = st.files ∧
    (stepBinary st l).currentFile.isSome = st.currentFile.isSome ∧
    (HasBin st → HasBin (stepBinary st l)) := by
  rcases hcf : st.currentFile with - | f
  · simp [stepBinary, hcf]
  · by_cases hp : isBinaryMarker l = true
    · simp only [stepBinary, hcf, hp, eq_self_iff_true, if_true]
      refine ⟨by simp, by simp [hcf], ?_⟩
      intro h
      exact Or.inr ⟨_, rfl, rfl⟩
    · rw [Bool.not_eq_true] at hp
      rw [stepBinary_skip _ _ hp]
      exact ⟨rfl, by rw [hcf], fun h => h⟩

theorem stepHunk_shape (st : PState) (l : List Char) :
    ∃ dh chp ch, stepHunk st l =
      { st with doneHunks := dh, curHunkPushed := chp, currentHunk := ch } := by
  unfold stepHunk
  by_cases hg : (("@@".toList).isPrefixOf l = true ∧ st.currentFile.isSome = true)
  · rw [if_pos hg]
    rcases matchHunkHeader l with - | hk
    · exact ⟨st.doneHunks, _, st.currentHunk, rfl⟩
    · rcases st.currentHunk with - | old
      · exact ⟨st.doneHunks, 0, some hk, rfl⟩
      · exact ⟨_, 0, some hk, rfl⟩
  · rw [if_neg hg]
    exact ⟨st.doneHunks, st.curHunkPushed, st.currentHunk, rfl⟩

theorem stepHunk_ok (st : PState) (l : List Char) :
    (stepHunk st l).files = st.files ∧
    (stepHunk st l).currentFile.isSome = st.currentFile.isSome ∧
    (HasBin st → HasBin (stepHunk st l)) := by
  obtain ⟨dh, chp, ch, he⟩ := stepHunk_shape st l
  rw [he]
  exact ⟨rfl, rfl, fun h => h⟩

theorem stepContent_ok (st : PState) (l : List Char) :
    (stepContent st l).files = st.files ∧
    (stepContent st l).currentFile.isSome = st.currentFile.isSome ∧
    (HasBin st → HasBin (stepContent st l)) := by
  rcases hch : st.currentHunk with - | hk
  · rw [stepContent_skip_noHunk _ _ hch]
    exact ⟨rfl, rfl, fun h => h⟩
  · rcases hcf : st.currentFile with - | f
    · simp [stepContent, hch, hcf]
    · have hpres : ∀ f2 ch2, f2.isBinary = f.isBinary →
          ((({ st with currentFile := some f2, currentHunk := ch2 } : PState)).files = st.files ∧
          (({ st with currentFile := some f2, currentHunk := ch2 } : PState)).currentFile.isSome =
            (some f).isSome ∧
          (HasBin st →
            HasBin ({ st with currentFile := some f2, currentHunk := ch2 } : PState))) := by
        intro f2 ch2 hb2
        refine ⟨rfl, by simp, ?_⟩
        rintro (⟨g, hg, hb⟩ | ⟨g, hg, hb⟩)
        · exact Or.inl ⟨g, hg, hb⟩
        · rw [hcf] at hg
          obtain rfl := Option.some.inj hg
          exact Or.inr ⟨f2, rfl, by rw [hb2]; exact hb⟩
      simp only [stepContent, hch, hcf]
      split_ifs with hbin hc1 hc2 hc3
      · exact ⟨rfl, by rw [hcf], fun h => h⟩
      · exact hpres { f with additions := f.additions + 1 }
          (some { hk with lines := hk.lines ++
            [{ type := LineType.add, content := String.mk (l.drop 1) }] }) rfl
      · exact hpres { f with deletions := f.deletions + 1 }
          (some { hk with lines := hk.lines ++
            [{ type := LineType.del, content := String.mk (l.drop 1) }] }) rfl
      · exact hpres f
          (some { hk with lines := hk.lines ++
            [{ type := LineType.context, content := String.mk (l.drop 1) }] }) rfl
      · exact ⟨rfl, by rw [hcf], fun h => h⟩

theorem stepDiffGit_ok (st : PState) (l : List Char) :
    (∃ tl, (stepDiffGit st l).files = st.files ++ tl) ∧
    (st.currentFile.isSome = true → (stepDiffGit st l).currentFile.isSome = true) ∧
    (HasBin st → HasBin (stepDiffGit st l)) := by
  by_cases hp : ("diff --git ".toList).isPrefixOf l = true
  case neg =>
    rw [Bool.not_eq_true] at hp
    rw [stepDiffGit_skip _ _ hp]
    exact ⟨⟨[], by simp⟩, fun h => h, fun h => h⟩
  case pos =>
    obtain ⟨sfs, sfp, scf, sdh, schp, sch⟩ := st
    unfold stepDiffGit
    rw [if_pos hp]
    rcases scf with - | f
    · dsimp only
      rcases hm : matchDiffGit l with - | ⟨o, n⟩
      · exact ⟨⟨[], by simp⟩, fun h => h, fun h => h⟩
      · refine ⟨⟨[], by simp⟩, fun h => rfl, ?_⟩
        rintro (⟨g, hg, hb⟩ | ⟨g, hg, hb⟩)
        · exact Or.inl ⟨g, hg, hb⟩
        · exact absurd hg (by simp)
    · dsimp only
      rcases hm : matchDiffGit l with - | ⟨o, n⟩
      · refine ⟨⟨[], by simp⟩, fun h => rfl, ?_⟩
        rintro (⟨g, hg, hb⟩ | ⟨g, hg, hb⟩)
        · exact Or.inl ⟨g, hg, hb⟩
        · obtain rfl := Option.some.inj hg
          exact Or.inr ⟨f, rfl, hb⟩
      · refine ⟨⟨_, rfl⟩, fun h => rfl, ?_⟩
        rintro (⟨g, hg, hb⟩ | ⟨g, hg, hb⟩)
        · exact Or.inl ⟨g, List.mem_append_left _ hg, hb⟩
        · obtain rfl := Option.some.inj hg
          refine Or.inl ⟨{ f with hunks := finalizeHunks sdh schp sch },
            List.mem_append_right _ ?_, hb⟩
          exact List.mem_replicate.mpr ⟨by omega, rfl⟩

theorem step_ok (st : PState) (l : List Char) :
    (∃ tl, (step st l).files = st.files ++ tl) ∧
    (st.currentFile.isSome = true → (step st l).currentFile.isSome = true) ∧
    (HasBin st → HasBin (step st l)) := by
  unfold step
  obtain ⟨⟨tl0, e0⟩, s0, b0⟩ := stepDiffGit_ok st l
  obtain ⟨e1, s1, b1⟩ := stepNewFile_ok (stepDiffGit st l) l
  obtain ⟨e2, s2, b2⟩ := stepDeleted_ok (stepNewFile (stepDiffGit st l) l) l
  obtain ⟨e3, s3, b3⟩ :=
    stepRename_ok (stepDeleted (stepNewFile (stepDiffGit st l) l) l) l
  obtain ⟨e4, s4, b4⟩ :=
    stepBinary_ok (stepRename (stepDeleted (stepNewFile (stepDiffGit st l) l) l) l) l
  obtain ⟨e5, s5, b5⟩ :=
    stepHunk_ok (stepBinary (stepRename (stepDeleted (stepNewFile (stepDiffGit st l) l) l) l) l) l
  obtain ⟨e6, s6, b6⟩ :=
    stepContent_ok
      (stepHunk (stepBinary (stepRename (stepDeleted (stepNewFile (stepDiffGit st l) l) l) l) l) l) l
  refine ⟨⟨tl0, ?_⟩, ?_, ?_⟩
  · rw [e6, e5, e4, e3, e2, e1, e0]
  · intro h
    rw [s6, s5, s4, s3, s2, s1]
    exact s0 h
  · intro h
    exact b6 (b5 (b4 (b3 (b2 (b1 (b0 h))))))

theorem foldl_ok : ∀ (ls : List (List Char)) (st : PState),
    (∃ tl, (List.foldl step st ls).files = st.files ++ tl) ∧
    (st.currentFile.isSome = true → (List.foldl step st ls).currentFile.isSome = true) ∧
    (HasBin st → HasBin (List.foldl step st ls)) := by
  intro ls
  induction ls with
  | nil => exact fun st => ⟨⟨[], by simp⟩, fun h => h, fun h => h⟩
  | cons l ls2 ih =>
    intro st
    obtain ⟨⟨tl0, e0⟩, s0, b0⟩ := step_ok st l
    obtain ⟨⟨tl1, e1⟩, s1, b1⟩ := ih (step st l)
    refine ⟨⟨tl0 ++ tl1, ?_⟩, ?_, ?_⟩
    · rw [List.foldl_cons, e1, e0, List.append_assoc]
    · intro h
      rw [List.foldl_cons]
      exact s1 (s0 h)
    · intro h
      rw [List.foldl_cons]
      exact b1 (b0 h)

theorem finalize_files_ext (st : PState) :
    ∃ tl, finalizeFiles st = st.files ++ tl := by
  unfold finalizeFiles
  rcases st.currentFile with - | f
  · exact ⟨[], by simp⟩
  · exact ⟨_, List.append_assoc st.files _ _⟩

theorem finalize_hasbin (st : PState) (h : HasBin st) :
    ∃ f ∈ finalizeFiles st, f.isBinary = true := by
  rcases h with ⟨g, hg, hb⟩ | ⟨g, hg, hb⟩
  · obtain ⟨tl, htl⟩ := finalize_files_ext st
    exact ⟨g, by rw [htl]; exact List.mem_append_left _ hg, hb⟩
  · unfold finalizeFiles
    rw [hg]
    refine ⟨{ g with hunks := finalizeHunks st.doneHunks st.curHunkPushed st.currentHunk },
      ?_, hb⟩
    exact List.mem_append_right _ (by simp)

theorem step_start (st : PState) (t o n : List Char)
    (hm : matchDiffGit ("diff --git ".toList ++ t) = some (o, n)) :
    step st ("diff --git ".toList ++ t) =
      { files := st.files ++
          (match st.currentFile with
           | none => []
           | some f => List.replicate (st.curFilePushed + 1)
               { f with hunks := finalizeHunks st.doneHunks st.curHunkPushed st.currentHunk }),
        curFilePushed := 0,
        currentFile := some { oldPath := String.mk o, newPath := String.mk n,
                              type := FileType.modified, hunks := [], additions := 0,
                              deletions := 0, isBinary := false },
        doneHunks := [], curHunkPushed := 0, currentHunk := none } := by
  have hnf : ("new file mode".toList).isPrefixOf ("diff --git ".toList ++ t) = false := rfl
  have hdel : ("deleted file mode".toList).isPrefixOf ("diff --git ".toList ++ t) = false := rfl
  have hrn : ("rename from".toList).isPrefixOf ("diff --git ".toList ++ t) = false := rfl
  have hbm : isBinaryMarker ("diff --git ".toList ++ t) = false := rfl
  have hat : ("@@".toList).isPrefixOf ("diff --git ".toList ++ t) = false := rfl
  have hpre : ("diff --git ".toList).isPrefixOf ("diff --git ".toList ++ t) = true := by
    rw [List.isPrefixOf_iff_prefix]
    exact List.prefix_append _ _
  obtain ⟨sfs, sfp, scf, sdh, schp, sch⟩ := st
  have ed : stepDiffGit ⟨sfs, sfp, scf, sdh, schp, sch⟩ ("diff --git ".toList ++ t) =
      { files := sfs ++
          (match scf with
           | none => []
           | some f => List.replicate (sfp + 1)
               { f with hunks := finalizeHunks sdh schp sch }),
        curFilePushed := 0,
        currentFile := some { oldPath := String.mk o, newPath := String.mk n,
                              type := FileType.modified, hunks := [], additions := 0,
                              deletions := 0, isBinary := false },
        doneHunks := [], curHunkPushed := 0, currentHunk := none } := by
    unfold stepDiffGit
    rw [if_pos hpre]
    rcases scf with - | f
    · dsimp only
      rw [hm]
      simp
    · dsimp only
      rw [hm]
  rw [step, ed, stepNewFile_skip _ _ hnf, stepDeleted_skip _ _ hdel,
    stepRename_skip _ _ hrn, stepBinary_skip _ _ hbm, stepHunk_skip _ _ hat,
    stepContent_skip_noHunk]
  rfl

theorem step_header_some (st : PState) (l : List Char)
    (hp : ("diff --git ".toList).isPrefixOf l = true)
    (hm : (matchDiffGit l).isSome = true) :
    (step st l).currentFile.isSome = true := by
  obtain ⟨t, rfl⟩ := isPrefixOf_eq_append hp
  rcases homn : matchDiffGit ("diff --git ".toList ++ t) with - | ⟨o, n⟩
  · rw [homn] at hm
    simp at hm
  · rw [step_start st t o n homn]
    rfl

theorem step_marker_bin (st : PState) (l : List Char)
    (hcf : st.currentFile.isSome = true) (hb : isBinaryMarker l = true) :
    HasBin (step st l) := by
  have hpre : ("Binary files ".toList).isPrefixOf l = true := by
    unfold isBinaryMarker at hb
    exact (Bool.and_eq_true_iff.mp hb).1
  obtain ⟨t, rfl⟩ := isPrefixOf_eq_append hpre
  have hdg : ("diff --git ".toList).isPrefixOf ("Binary files ".toList ++ t) = false := rfl
  have hnf : ("new file mode".toList).isPrefixOf ("Binary files ".toList ++ t) = false := rfl
  have hdel : ("deleted file mode".toList).isPrefixOf ("Binary files ".toList ++ t) = false := rfl
  have hrn : ("rename from".toList).isPrefixOf ("Binary files ".toList ++ t) = false := rfl
  rcases hcfe : st.currentFile with - | f
  · rw [hcfe] at hcf
    simp at hcf
  · have hb4 : HasBin (stepBinary st ("Binary files ".toList ++ t)) := by
      simp only [stepBinary, hcfe, hb, eq_self_iff_true, if_true]
      exact Or.inr ⟨_, rfl, rfl⟩
    have e0 : stepDiffGit st ("Binary files ".toList ++ t) = st := stepDiffGit_skip _ _ hdg
    have e1 : stepNewFile st ("Binary files ".toList ++ t) = st := stepNewFile_skip _ _ hnf
    have e2 : stepDeleted st ("Binary files ".toList ++ t) = st := stepDeleted_skip _ _ hdel
    have e3 : stepRename st ("Binary files ".toList ++ t) = st := stepRename_skip _ _ hrn
    unfold step
    rw [e0, e1, e2, e3]
    exact (stepContent_ok _ _).2.2 ((stepHunk_ok _ _).2.2 hb4)

/-- Claim C4 amended: for every accepted input, (1) a `Binary files ...
differ` marker line appearing after some file-header line that matches the
file regex yields a `FileDiff` with `isBinary = true` in the output,
regardless of any `@@` lines anywhere in the input; and (2) the file
section around the marker — from its matching header to the next
`diff --git ` line (itself matching) or to the end of input — produces, at
its position in `files`, a `FileDiff` with `isBinary = true`, and provided
no line of the section body starts with `@@` (or starts another file), also
`hunks = []`, `additions = 0` and `deletions = 0`.  The proviso on the
`hunks`/counter part is necessary: an `@@` line matching the hunk grammar
still opens an (empty) hunk for a binary file, as the counterexample
shows. -/
theorem binary_section_excluded :
    (∀ (s : String) (pre : List (List Char)) (bline : List Char) (rest : List (List Char)),
        ¬ s = "" → splitOnNl s.data = pre ++ bline :: rest →
        isBinaryMarker bline = true →
        (∃ h ∈ pre, ("diff --git ".toList).isPrefixOf h = true ∧
          (matchDiffGit h).isSome = true) →
        ∃ r, parse (some s) = Except.ok r ∧ ∃ f ∈ r.files, f.isBinary = true) ∧
    (∀ (s : String) (pre : List (List Char)) (hdr : List Char) (mid post : List (List Char)),
        ¬ s = "" → splitOnNl s.data = pre ++ hdr :: (mid ++ post) →
        ("diff --git ".toList).isPrefixOf hdr = true →
        (matchDiffGit hdr).isSome = true →
        (∀ l ∈ mid, ("diff --git ".toList).isPrefixOf l = false ∧
          ("@@".toList).isPrefixOf l = false) →
        (post = [] ∨ ∃ p r2, post = p :: r2 ∧
          ("diff --git ".toList).isPrefixOf p = true ∧ (matchDiffGit p).isSome = true) →
        (∃ l ∈ mid, isBinaryMarker l = true) →
        ∃ r, parse (some s) = Except.ok r ∧ ∃ A B f, r.files = A ++ f :: B ∧
          f.isBinary = true ∧ f.hunks = [] ∧ f.additions = 0 ∧ f.deletions = 0) := by
  constructor
  · intro s pre bline rest hs hsplit hb hex
    refine ⟨{ metadata := extractMetadata (splitOnNl s.data),
              files := parseFiles (splitOnNl s.data),
              stats := calculateStats (parseFiles (splitOnNl s.data)),
              raw := s }, by simp [parse, hs], ?_⟩
    simp only []
    unfold parseFiles
    rw [hsplit, List.foldl_append, List.foldl_cons]
    have hcfsome : (List.foldl step initPState pre).currentFile.isSome = true := by
      obtain ⟨hl, hmem, hp2, hm2⟩ := hex
      obtain ⟨a, b, rfl⟩ := List.append_of_mem hmem
      rw [List.foldl_append, List.foldl_cons]
      exact (foldl_ok b _).2.1 (step_header_some _ _ hp2 hm2)
    have hhb : HasBin (step (List.foldl step initPState pre) bline) :=
      step_marker_bin _ _ hcfsome hb
    exact finalize_hasbin _ ((foldl_ok rest _).2.2 hhb)
  · intro s pre hdr mid post hs hsplit hhdr hmt hmid hpost hbin
    obtain ⟨t, rfl⟩ := isPrefixOf_eq_append hhdr
    rcases homn : matchDiffGit ("diff --git ".toList ++ t) with - | ⟨o, n⟩
    · rw [homn] at hmt
      simp at hmt
    · refine ⟨{ metadata := extractMetadata (splitOnNl s.data),
                files := parseFiles (splitOnNl s.data),
                stats := calculateStats (parseFiles (splitOnNl s.data)),
                raw := s }, by simp [parse, hs], ?_⟩
      simp only []
      unfold parseFiles
      rw [hsplit, List.foldl_append, List.foldl_cons, step_start _ t o n homn,
        List.foldl_append]
      set F1 := (List.foldl step initPState pre).files ++
        (match (List.foldl step initPState pre).currentFile with
         | none => []
         | some f => List.replicate ((List.foldl step initPState pre).curFilePushed + 1)
             { f with hunks := finalizeHunks (List.foldl step initPState pre).doneHunks
                                 (List.foldl step initPState pre).curHunkPushed
                                 (List.foldl step initPState pre).currentHunk }) with hF1
      obtain ⟨f2, e2, f2h, f2a, f2d, f2b⟩ := binsec_fold mid F1
        { oldPath := String.mk o, newPath := String.mk n, type := FileType.modified,
          hunks := [], additions := 0, deletions := 0, isBinary := false } hmid
      rw [e2]
      have hf2bin : f2.isBinary = true := by
        rw [f2b]
        obtain ⟨l, hl, hbl⟩ := hbin
        simp only [Bool.false_or, List.any_eq_true]
        exact ⟨l, hl, hbl⟩
      rcases hpost with rfl | ⟨p, r2, rfl, hpp, hpm⟩
      · refine ⟨F1, [],
          { f2 with hunks := finalizeHunks [] 0 none }, ?_, hf2bin, rfl, by rw [f2a], by rw [f2d]⟩
        unfold finalizeFiles
        simp [finalizeHunks]
      · obtain ⟨t2, rfl⟩ := isPrefixOf_eq_append hpp
        rcases homn2 : matchDiffGit ("diff --git ".toList ++ t2) with - | ⟨o2, n2⟩
        · rw [homn2] at hpm
          simp at hpm
        · rw [List.foldl_cons, step_start _ t2 o2 n2 homn2]
          simp only []
          obtain ⟨⟨tl1, etl1⟩, -, -⟩ := foldl_ok r2
            { files := F1 ++ List.replicate (0 + 1) { f2 with hunks := finalizeHunks [] 0 none },
              curFilePushed := 0,
              currentFile := some { oldPath := String.mk o2, newPath := String.mk n2,
                                    type := FileType.modified, hunks := [], additions := 0,
                                    deletions := 0, isBinary := false },
              doneHunks := [], curHunkPushed := 0, currentHunk := none }
          obtain ⟨tl2, etl2⟩ := finalize_files_ext (List.foldl step
            { files := F1 ++ List.replicate (0 + 1) { f2 with hunks := finalizeHunks [] 0 none },
              curFilePushed := 0,
              currentFile := some { oldPath := String.mk o2, newPath := String.mk n2,
                                    type := FileType.modified, hunks := [], additions := 0,
                                    deletions := 0, isBinary := false },
              doneHunks := [], curHunkPushed := 0, currentHunk := none } r2)
          rw [etl2, etl1]
          refine ⟨F1, tl1 ++ tl2, { f2 with hunks := finalizeHunks [] 0 none },
            ?_, hf2bin, rfl, by rw [f2a], by rw [f2d]⟩
          simp [List.append_assoc, finalizeHunks]

/-- Claim C4 witness: in a two-file patch preceded by a metadata line, the
second (binary) file section produces a binary `FileDiff` with no hunks and
zero counters, and a binary file is present in the output. -/
theorem binary_section_excluded_witness :
    (∃ r, parse (some ("Subject: add image\ndiff --git a/a.txt b/a.txt\n@@ -1 +1 @@\n+z\ndiff --git a/x.png b/x.png\nBinary files a/x.png and b/x.png differ")) =
        Except.ok r ∧ ∃ f ∈ r.files, f.isBinary = true) ∧
    (∃ r, parse (some ("Subject: add image\ndiff --git a/a.txt b/a.txt\n@@ -1 +1 @@\n+z\ndiff --git a/x.png b/x.png\nBinary files a/x.png and b/x.png differ")) =
        Except.ok r ∧ ∃ A B f, r.files = A ++ f :: B ∧
        f.isBinary = true ∧ f.hunks = [] ∧ f.additions = 0 ∧ f.deletions = 0) :=
  ⟨binary_section_excluded.1 _
      [("Subject: add image".toList), ("diff --git a/a.txt b/a.txt".toList),
       ("@@ -1 +1 @@".toList), ("+z".toList), ("diff --git a/x.png b/x.png".toList)]
      ("Binary files a/x.png and b/x.png differ".toList) [] (by decide) (by decide)
      (by decide) (by decide),
   binary_section_excluded.2 _
      [("Subject: add image".toList), ("diff --git a/a.txt b/a.txt".toList),
       ("@@ -1 +1 @@".toList), ("+z".toList)]
      ("diff --git a/x.png b/x.png".toList)
      [("Binary files a/x.png and b/x.png differ".toList)] [] (by decide) (by decide)
      (by decide) (by decide) (by decide) (Or.inl rfl) (by decide)⟩

theorem sumHunkAdds_append (a b : List Hunk) :
    sumHunkAdds (a ++ b) = sumHunkAdds a + sumHunkAdds b := by
  simp [sumHunkAdds]

theorem sumHunkDels_append (a b : List Hunk) :
    sumHunkDels (a ++ b) = sumHunkDels a + sumHunkDels b := by
  simp [sumHunkDels]

theorem sumHunkAdds_single (h : Hunk) : sumHunkAdds [h] = hunkAdds h := by
  simp [sumHunkAdds]

theorem sumHunkDels_single (h : Hunk) : sumHunkDels [h] = hunkDels h := by
  simp [sumHunkDels]

theorem hunkAdds_push_add (h : Hunk) (c : String) :
    hunkAdds { h with lines := h.lines ++ [{ type := LineType.add, content := c }] } =
      hunkAdds h + 1 := by
  simp [hunkAdds, List.filter_append]

theorem hunkDels_push_add (h : Hunk) (c : String) :
    hunkDels { h with lines := h.lines ++ [{ type := LineType.add, content := c }] } =
      hunkDels h := by
  simp [hunkDels, List.filter_append]

theorem hunkAdds_push_del (h : Hunk) (c : String) :
    hunkAdds { h with lines := h.lines ++ [{ type := LineType.del, content := c }] } =
      hunkAdds h := by
  simp [hunkAdds, List.filter_append]

theorem hunkDels_push_del (h : Hunk) (c : String) :
    hunkDels { h with lines := h.lines ++ [{ type := LineType.del, content := c }] } =
      hunkDels h + 1 := by
  simp [hunkDels, List.filter_append]

theorem hunkAdds_push_context (h : Hunk) (c : String) :
    hunkAdds { h with lines := h.lines ++ [{ type := LineType.context, content := c }] } =
      hunkAdds h := by
  simp [hunkAdds, List.filter_append]

theorem hunkDels_push_context (h : Hunk) (c : String) :
    hunkDels { h with lines := h.lines ++ [{ type := LineType.context, content := c }] } =
      hunkDels h := by
  simp [hunkDels, List.filter_append]

theorem matchHunkAt_lines (cs : List Char) (h : Hunk) (e : matchHunkAt cs = some h) :
    h.lines = [] := by
  unfold matchHunkAt at e
  dsimp only at e
  repeat' split at e
  all_goals first
    | (obtain rfl := Option.some.inj e; rfl)
    | exact absurd e (by simp)

theorem matchHunkHeader_lines :
    ∀ (l : List Char) (h : Hunk), matchHunkHeader l = some h → h.lines = [] := by
  intro l
  induction l with
  | nil => intro h e; exact absurd e (by simp [matchHunkHeader])
  | cons c rest ih =>
    intro h e
    unfold matchHunkHeader at e
    rcases ea : matchHunkAt (c :: rest) with - | h2
    · rw [ea] at e
      simp only [Option.none_orElse] at e
      exact ih h e
    · rw [ea] at e
      simp only [Option.some_orElse] at e
      obtain rfl := Option.some.inj e
      exact matchHunkAt_lines _ _ ea

theorem consistent_finalized (f : FileDiff) (sdh : List Hunk) (sch : Option Hunk)
    (hadd : f.additions = sumHunkAdds sdh + (match sch with | none => 0 | some hk => hunkAdds hk))
    (hdel : f.deletions = sumHunkDels sdh + (match sch with | none => 0 | some hk => hunkDels hk)) :
    ConsistentFile { f with hunks := finalizeHunks sdh 0 sch } := by
  rcases sch with - | hk
  · exact ⟨hadd, hdel⟩
  · constructor
    · show f.additions = sumHunkAdds (sdh ++ List.replicate 1 hk)
      rw [sumHunkAdds_append, hadd]
      simp [sumHunkAdds]
    · show f.deletions = sumHunkDels (sdh ++ List.replicate 1 hk)
      rw [sumHunkDels_append, hdel]
      simp [sumHunkDels]

theorem inv_stepDiffGit (st : PState) (l : List Char) (h : CountInv st) :
    CountInv (stepDiffGit st l) := by
  by_cases hp : ("diff --git ".toList).isPrefixOf l = true
  case neg =>
    rw [Bool.not_eq_true] at hp
    rw [stepDiffGit_skip _ _ hp]
    exact h
  case pos =>
    obtain ⟨sfs, sfp, scf, sdh, schp, sch⟩ := st
    obtain ⟨h1, h2, h3, h4⟩ := h
    dsimp only at h2
    subst h2
    unfold stepDiffGit
    rw [if_pos hp]
    rcases scf with - | f
    · dsimp only
      rcases hm : matchDiffGit l with - | ⟨o, n⟩
      · exact ⟨h1, rfl, h3, h4⟩
      · refine ⟨h1, rfl, ?_, ?_⟩
        · intro g hg
          obtain rfl := Option.some.inj hg
          exact ⟨rfl, rfl⟩
        · intro hg
          exact absurd hg (by simp)
    · have hf := h3 f rfl
      dsimp only at hf
      have hcons : ConsistentFile { f with hunks := finalizeHunks sdh 0 sch } :=
        consistent_finalized f sdh sch
          (by rcases sch with - | hk <;> simpa [curAdds] using hf.1)
          (by rcases sch with - | hk <;> simpa [curAdds] using hf.2)
      dsimp only
      rcases hm : matchDiffGit l with - | ⟨o, n⟩
      · refine ⟨h1, rfl, ?_, ?_⟩
        · intro g hg
          obtain rfl := Option.some.inj hg
          constructor
          · simpa [ConsistentFile, curAdds] using hcons.1
          · simpa [ConsistentFile, curDels] using hcons.2
        · intro hg
          exact absurd hg (by simp)
      · refine ⟨?_, rfl, ?_, ?_⟩
        · intro g hg
          rcases List.mem_append.mp hg with hg1 | hg2
          · exact h1 g hg1
          · obtain rfl := List.eq_of_mem_replicate hg2
            exact hcons
        · intro g hg
          obtain rfl := Option.some.inj hg
          exact ⟨rfl, rfl⟩
        · intro hg
          exact absurd hg (by simp)

theorem inv_mutate_file (sfs : List FileDiff) (sfp : Nat) (sdh : List Hunk)
    (schp : Nat) (sch : Option Hunk) (f g : FileDiff)
    (hadd : g.additions = f.additions) (hdel : g.deletions = f.deletions)
    (h : CountInv ⟨sfs, sfp, some f, sdh, schp, sch⟩) :
    CountInv ⟨sfs, sfp, some g, sdh, schp, sch⟩ := by
  obtain ⟨h1, h2, h3, h4⟩ := h
  have hf := h3 f rfl
  refine ⟨h1, h2, ?_, ?_⟩
  · intro g2 hg2
    obtain rfl := Option.some.inj hg2
    exact ⟨by rw [hadd]; exact hf.1, by rw [hdel]; exact hf.2⟩
  · intro hg
    exact absurd hg (by simp)

theorem inv_stepNewFile (st : PState) (l : List Char) (h : CountInv st) :
    CountInv (stepNewFile st l) := by
  obtain ⟨sfs, sfp, scf, sdh, schp, sch⟩ := st
  rcases scf with - | f
  · simpa [stepNewFile] using h
  · by_cases hp : ("new file mode".toList).isPrefixOf l = true
    · simp only [stepNewFile, hp, eq_self_iff_true, if_true]
      exact inv_mutate_file _ _ _ _ _ f _ rfl rfl h
    · rw [Bool.not_eq_true] at hp
      rw [stepNewFile_skip _ _ hp]
      exact h

theorem inv_stepDeleted (st : PState) (l : List Char) (h : CountInv st) :
    CountInv (stepDeleted st l) := by
  obtain ⟨sfs, sfp, scf, sdh, schp, sch⟩ := st
  rcases scf with - | f
  · simpa [stepDeleted] using h
  · by_cases hp : ("deleted file mode".toList).isPrefixOf l = true
    · simp only [stepDeleted, hp, eq_self_iff_true, if_true]
      exact inv_mutate_file _ _ _ _ _ f _ rfl rfl h
    · rw [Bool.not_eq_true] at hp
      rw [stepDeleted_skip _ _ hp]
      exact h

theorem inv_stepRename (st : PState) (l : List Char) (h : CountInv st) :
    CountInv (stepRename st l) := by
  obtain ⟨sfs, sfp, scf, sdh, schp, sch⟩ := st
  rcases scf with - | f
  · simpa [stepRename] using h
  · by_cases hp : ("rename from".toList).isPrefixOf l = true
    · simp only [stepRename, hp, eq_self_iff_true, if_true]
      exact inv_mutate_file _ _ _ _ _ f _ rfl rfl h
    · rw [Bool.not_eq_true] at hp
      rw [stepRename_skip _ _ hp]
      exact h

theorem inv_stepBinary (st : PState) (l : List Char) (h : CountInv st) :
    CountInv (stepBinary st l) := by
  obtain ⟨sfs, sfp, scf, sdh, schp, sch⟩ := st
  rcases scf with - | f
  · simpa [stepBinary] using h
  · by_cases hp : isBinaryMarker l = true
    · simp only [stepBinary, hp, eq_self_iff_true, if_true]
      exact inv_mutate_file _ _ _ _ _ f _ rfl rfl h
    · rw [Bool.not_eq_true] at hp
      rw [stepBinary_skip _ _ hp]
      exact h

theorem inv_stepHunk (st : PState) (l : List Char) (h : CountInv st)
    (hwf : ("@@".toList).isPrefixOf l = true → (matchHunkHeader l).isSome = true) :
    CountInv (stepHunk st l) := by
  by_cases hp : (("@@".toList).isPrefixOf l = true ∧ st.currentFile.isSome = true)
  case neg =>
    unfold stepHunk
    rw [if_neg hp]
    exact h
  case pos =>
    obtain ⟨sfs, sfp, scf, sdh, schp, sch⟩ := st
    obtain ⟨h1, h2, h3, h4⟩ := h
    dsimp only at h2
    subst h2
    rcases hm : matchHunkHeader l with - | hk
    · rw [hm] at hwf
      have := hwf hp.1
      simp at this
    · have hlines : hk.lines = [] := matchHunkHeader_lines l hk hm
      have hka : hunkAdds hk = 0 := by simp [hunkAdds, hlines]
      have hkd : hunkDels hk = 0 := by simp [hunkDels, hlines]
      rcases scf with - | f
      · simp at hp
      · have hf := h3 f rfl
        dsimp only at hf
        unfold stepHunk
        rw [if_pos hp, hm]
        dsimp only
        rcases sch with - | old
        · refine ⟨h1, rfl, ?_, ?_⟩
          · intro g hg
            obtain rfl := Option.some.inj hg
            constructor
            · simpa [curAdds, hka] using hf.1
            · simpa [curDels, hkd] using hf.2
          · intro hg
            exact absurd hg (by simp)
        · refine ⟨h1, rfl, ?_, ?_⟩
          · intro g hg
            obtain rfl := Option.some.inj hg
            constructor
            · rw [sumHunkAdds_append]
              simpa [curAdds, hka, sumHunkAdds] using hf.1
            · rw [sumHunkDels_append]
              simpa [curDels, hkd, sumHunkDels] using hf.2
          · intro hg
            exact absurd hg (by simp)

theorem inv_stepContent (st : PState) (l : List Char) (h : CountInv st) :
    CountInv (stepContent st l) := by
  obtain ⟨sfs, sfp, scf, sdh, schp, sch⟩ := st
  rcases sch with - | hk
  · rw [stepContent_skip_noHunk _ _ rfl]
    exact h
  · rcases scf with - | f
    · simpa [stepContent] using h
    · obtain ⟨h1, h2, h3, h4⟩ := h
      dsimp only at h2
      subst h2
      have hf := h3 f rfl
      dsimp only at hf
      unfold stepContent
      dsimp only
      split_ifs with hbin hc1 hc2 hc3
      · exact ⟨h1, rfl, h3, h4⟩
      · refine ⟨h1, rfl, ?_, ?_⟩
        · intro g hg
          obtain rfl := Option.some.inj hg
          constructor
          · have ha := hunkAdds_push_add hk (String.mk (l.drop 1))
            simp only [curAdds] at hf ⊢
            rw [ha]
            have := hf.1
            omega
          · have hd := hunkDels_push_add hk (String.mk (l.drop 1))
            simp only [curDels] at hf ⊢
            rw [hd]
            exact hf.2
        · intro hg
          exact absurd hg (by simp)
      · refine ⟨h1, rfl, ?_, ?_⟩
        · intro g hg
          obtain rfl := Option.some.inj hg
          constructor
          · have ha := hunkAdds_push_del hk (String.mk (l.drop 1))
            simp only [curAdds] at hf ⊢
            rw [ha]
            exact hf.1
          · have hd := hunkDels_push_del hk (String.mk (l.drop 1))
            simp only [curDels] at hf ⊢
            rw [hd]
            have := hf.2
            omega
        · intro hg
          exact absurd hg (by simp)
      · refine ⟨h1, rfl, ?_, ?_⟩
        · intro g hg
          obtain rfl := Option.some.inj hg
          constructor
          · have ha := hunkAdds_push_context hk (String.mk (l.drop 1))
            simp only [curAdds] at hf ⊢
            rw [ha]
            exact hf.1
          · have hd := hunkDels_push_context hk (String.mk (l.drop 1))
            simp only [curDels] at hf ⊢
            rw [hd]
            exact hf.2
        · intro hg
          exact absurd hg (by simp)
      · exact ⟨h1, rfl, h3, h4⟩

theorem inv_step (st : PState) (l : List Char) (h : CountInv st)
    (hwf : ("@@".toList).isPrefixOf l = true → (matchHunkHeader l).isSome = true) :
    CountInv (step st l) := by
  unfold step
  exact inv_stepContent _ _
    (inv_stepHunk _ _
      (inv_stepBinary _ _
        (inv_stepRename _ _
          (inv_stepDeleted _ _
            (inv_stepNewFile _ _
              (inv_stepDiffGit _ _ h))))) hwf)

theorem inv_foldl : ∀ (lines : List (List Char)) (st : PState), CountInv st →
    (∀ l ∈ lines, ("@@".toList).isPrefixOf l = true → (matchHunkHeader l).isSome = true) →
    CountInv (List.foldl step st lines) := by
  intro lines
  induction lines with
  | nil => intro st h _; exact h
  | cons l ls ih =>
    intro st h hwf
    rw [List.foldl_cons]
    exact ih _ (inv_step _ _ h (hwf l (by simp))) (fun l2 hl2 => hwf l2 (by simp [hl2]))

theorem inv_finalize (st : PState) (h : CountInv st) :
    ∀ f ∈ finalizeFiles st, ConsistentFile f := by
  obtain ⟨sfs, sfp, scf, sdh, schp, sch⟩ := st
  obtain ⟨h1, h2, h3, h4⟩ := h
  dsimp only at h2
  subst h2
  rcases scf with - | f
  · intro g hg
    exact h1 g hg
  · have hf := h3 f rfl
    dsimp only at hf
    have hcons : ConsistentFile { f with hunks := finalizeHunks sdh 0 sch } :=
      consistent_finalized f sdh sch
        (by rcases sch with - | hk <;> simpa [curAdds] using hf.1)
        (by rcases sch with - | hk <;> simpa [curDels] using hf.2)
    intro g hg
    unfold finalizeFiles at hg
    dsimp only at hg
    rcases List.mem_append.mp hg with hg1 | hg2
    · rcases List.mem_append.mp hg1 with hg3 | hg4
      · exact h1 g hg3
      · obtain rfl := List.eq_of_mem_replicate hg4
        exact hcons
    · rw [List.mem_singleton] at hg2
      subst hg2
      exact hcons

/-- Claim C1 amended: for every accepted input in which each line beginning
with `@@` matches the hunk-header grammar, every parsed file's `additions`
and `deletions` equal the number of `add`- and `del`-typed lines summed
across its hunks.  The qualifier is necessary: a malformed `@@` line seen
while a hunk is open pushes that hunk yet keeps it current, so the same
(aliased, still-growing) hunk object ends up twice in `hunks` and the sums
double-count it, as the counterexample shows. -/
theorem parse_count_consistency (s : String) (hs : ¬ s = "")
    (hwf : ∀ l ∈ splitOnNl s.data, ("@@".toList).isPrefixOf l = true →
        (matchHunkHeader l).isSome = true) :
    ∀ r, parse (some s) = Except.ok r → ∀ f ∈ r.files,
      f.additions = sumHunkAdds f.hunks ∧ f.deletions = sumHunkDels f.hunks := by
  intro r hok f hf
  have hr : r = { metadata := extractMetadata (splitOnNl s.data),
                  files := parseFiles (splitOnNl s.data),
                  stats := calculateStats (parseFiles (splitOnNl s.data)),
                  raw := s } := by
    simp [parse, hs] at hok
    exact hok.symm
  subst hr
  dsimp only at hf
  have hinit : CountInv initPState := by
    refine ⟨by intro g hg; simp [initPState] at hg, rfl, ?_, fun _ => ⟨rfl, rfl⟩⟩
    intro g hg
    simp [initPState] at hg
  have hinv : CountInv (List.foldl step initPState (splitOnNl s.data)) :=
    inv_foldl _ _ hinit hwf
  have hcf : ConsistentFile f := by
    apply inv_finalize _ hinv
    unfold parseFiles at hf
    exact hf
  exact ⟨hcf.1, hcf.2⟩

/-- Claim C1 witness: on a concrete well-formed patch every parsed file's
counters agree with its hunks. -/
theorem parse_count_consistency_witness :
    ((parse (some patchW)).toOption.getD emptyParsedPatch).files.all
        (fun f => decide (f.additions = sumHunkAdds f.hunks ∧
          f.deletions = sumHunkDels f.hunks)) = true := by
  have h := parse_count_consistency patchW (by decide) (by decide)
    ((parse (some patchW)).toOption.getD emptyParsedPatch) rfl
  simp only [List.all_eq_true, decide_eq_true_eq]
  intro f hf
  exact h f hf

theorem toNat_ofNat_valid (n : Nat) (hv : Nat.isValidChar n) :
    (Char.ofNat n).toNat = n := by
  unfold Char.ofNat
  rw [dif_pos hv]
  simp [Char.ofNatAux, Char.toNat, UInt32.toNat, BitVec.toNat_ofNatLt]

theorem jsToLower_fixed (c d : Char) (hd : d.toNat < 65 ∨ 90 < d.toNat)
    (hd2 : d.toNat < 97 ∨ 122 < d.toNat) : jsToLower c = d ↔ c = d := by
  constructor
  · intro h
    unfold jsToLower at h
    split at h
    · exfalso
      rename_i hc
      have hv : Nat.isValidChar (c.toNat + 32) := by
        left
        omega
      have h1 : (Char.ofNat (c.toNat + 32)).toNat = c.toNat + 32 :=
        toNat_ofNat_valid _ hv
      rw [h] at h1
      omega
    · exact h
  · intro h
    subst h
    unfold jsToLower
    rw [if_neg]
    omega

theorem extAfterLastDot_lower (cs : List Char) :
    extAfterLastDot (lowerChars cs) = lowerChars (extAfterLastDot cs) := by
  have hfun : (fun c => decide (¬ c = '.')) ∘ jsToLower = (fun c => decide (¬ c = '.')) := by
    funext c
    simp only [Function.comp_apply]
    rw [decide_eq_decide]
    exact not_congr (jsToLower_fixed c '.' (by decide) (by decide))
  simp only [extAfterLastDot, lowerChars]
  rw [← List.map_reverse, List.takeWhile_map, hfun]
  simp only [List.length_map]
  split
  · rfl
  · rw [List.map_reverse]

theorem lastPathComponent_lower (cs : List Char) :
    lastPathComponent (lowerChars cs) = lowerChars (lastPathComponent cs) := by
  have hfun : (fun c => decide (¬ c = '/')) ∘ jsToLower = (fun c => decide (¬ c = '/')) := by
    funext c
    simp only [Function.comp_apply]
    rw [decide_eq_decide]
    exact not_congr (jsToLower_fixed c '/' (by decide) (by decide))
  simp only [lastPathComponent, lowerChars]
  rw [← List.map_reverse, List.takeWhile_map, hfun, List.map_reverse]

theorem detectLanguage_lower_congr (a b : List Char)
    (hab : lowerChars a = lowerChars b) :
    detectLanguage (String.mk a) = detectLanguage (String.mk b) := by
  have e1 : lowerChars (extAfterLastDot a) = lowerChars (extAfterLastDot b) := by
    rw [← extAfterLastDot_lower, ← extAfterLastDot_lower, hab]
  have e2 : lowerChars (lastPathComponent a) = lowerChars (lastPathComponent b) := by
    rw [← lastPathComponent_lower, ← lastPathComponent_lower, hab]
  show detectLanguage { data := a } = detectLanguage { data := b }
  unfold detectLanguage
  rw [show ({ data := a } : String).data = a from rfl,
    show ({ data := b } : String).data = b from rfl, e1, e2]

/-- Claim C10: `detectLanguage` is case-insensitive in the extension, not
only in its whole-filename special cases: changing the letter case of the
characters after the last dot (modelled by equality of the lowercased
suffixes) never changes the detected language. -/
theorem detectLanguage_ext_case_insensitive (p e1 e2 : List Char)
    (hdot : ¬ '.' ∈ e1) (hcase : lowerChars e1 = lowerChars e2) :
    detectLanguage (String.mk (p ++ '.' :: e1)) =
      detectLanguage (String.mk (p ++ '.' :: e2)) := by
  apply detectLanguage_lower_congr
  simp only [lowerChars, List.map_append, List.map_cons] at hcase ⊢
  rw [hcase]

/-- Claim C10 witness: `a.PY` and `a.py` detect the same language, namely
`python`. -/
theorem detectLanguage_ext_case_insensitive_witness :
    detectLanguage (String.mk (['a'] ++ '.' :: ['P', 'Y'])) =
        detectLanguage (String.mk (['a'] ++ '.' :: ['p', 'y'])) ∧
      detectLanguage (String.mk (['a'] ++ '.' :: ['p', 'y'])) = "python" :=
  ⟨detectLanguage_ext_case_insensitive ['a'] ['P', 'Y'] ['p', 'y'] (by decide) (by decide),
   by decide⟩
